import Mathlib

/-!
# SendRec waitlist store

A shallow embedding of the record store of `main.go` (`WaitlistEntry`, `Store`,
`NewStore`, `Store.Save`, `Store.Add`, `Store.GetAll`), of `isValidEmail` and of
`joinWaitlist`, and theorems about them.

Conventions of the embedding:

* `int64` values are integers of `Int`; every arithmetic result the code stores
  in an `int64` goes through `wrap64` (two's complement wrap-around).
* `time.Time` is an instant, counted in nanoseconds from Go's zero time.
* In the sequential part the read/write lock `mu` is not modelled: every
  operation runs as one step on the state, which is what holding the lock for the
  whole body gives. The section on concurrent calls of `Add` models the write
  lock and the interleaving of goroutines.
* `time.Now()` is an argument of `Store.Add`; the detached `go s.Save()` is
  recorded as the flag `saveRequested` of the result.
* The calls into `os` are modelled by `osStat`, `osReadFile` and `osWriteFile`;
  those into `encoding/json` are the arguments `unmarshal`, `marshal` and `decode`,
  and `marshalIndent` is the document that `json.MarshalIndent` writes.
* A Go `string` is a Lean `String`, so a text of valid UTF-8.
-/

namespace SendRec

/-! ## Machine integers -/

/-- Smallest `int64`. -/
def minInt64 : Int := -(2 ^ 63)

/-- Largest `int64`. -/
def maxInt64 : Int := 2 ^ 63 - 1

/-- Two's complement wrap-around of an integer to `int64`. -/
def wrap64 (x : Int) : Int := (x + 2 ^ 63) % 2 ^ 64 - 2 ^ 63

/-- The integer is a value of type `int64`. -/
def isInt64 (x : Int) : Prop := minInt64 ≤ x ∧ x ≤ maxInt64

instance (x : Int) : Decidable (isInt64 x) := by
  unfold isInt64; exact inferInstance

/-! ## Data model -/

/-- An instant of `time.Time`, in nanoseconds from Go's zero time. -/
abbrev Time := Int

/-- Go `type WaitlistEntry struct { ID int64; Email string; CreatedAt time.Time }`. -/
structure WaitlistEntry where
  ID : Int
  Email : String
  CreatedAt : Time
  deriving DecidableEq, Repr

/-- The zero value `WaitlistEntry{}`, which `make` fills a fresh slice with. -/
def WaitlistEntry.zero : WaitlistEntry := ⟨0, "", 0⟩

/-- Go `type Store struct { mu; entries []WaitlistEntry; file string; nextID int64 }`. -/
structure Store where
  entries : List WaitlistEntry
  file : String
  nextID : Int
  deriving DecidableEq, Repr

/-! ## The file system and the JSON decoder, as `NewStore` sees them -/

/-- Errors returned by `os.Stat`, `os.ReadFile`, `os.WriteFile`, `json.Unmarshal`
and `json.MarshalIndent`. -/
inductive Error where
  | notExist
  | permission
  | decodeFailed
  | encodeFailed
  | io
  deriving DecidableEq, Repr

/-- What the file system holds at a path. -/
inductive Location where
  /-- No file at the path. -/
  | absent
  /-- A file with this content exists, but a directory on its path may not be
  searched by the process, so the path cannot be resolved. -/
  | unreachable (data : String)
  /-- A file with this content exists and can be stat-ed, but not opened for reading. -/
  | unreadable (data : String)
  /-- A file with this content exists and can be read. -/
  | readable (data : String)
  deriving DecidableEq, Repr

/-- A file exists at the location. -/
def Location.fileExists : Location → Bool
  | .absent => false
  | _ => true

/-- The error of `os.Stat(path)`; `none` is Go's `err == nil`. -/
def osStat : Location → Option Error
  | .absent => some .notExist
  | .unreachable _ => some .permission
  | .unreadable _ => none
  | .readable _ => none

/-- The result of `os.ReadFile(path)`. -/
def osReadFile : Location → Except Error String
  | .absent => .error .notExist
  | .unreachable _ => .error .permission
  | .unreadable _ => .error .permission
  | .readable data => .ok data

/-! ## NewStore -/

/-- The loop `for _, e := range s.entries { if e.ID >= s.nextID { s.nextID = e.ID + 1 } }`
of `NewStore`, started with the counter `nextID`. -/
def findMaxID : List WaitlistEntry → Int → Int
  | [], nextID => nextID
  | e :: rest, nextID =>
    if e.ID ≥ nextID then findMaxID rest (wrap64 (e.ID + 1)) else findMaxID rest nextID

/-- Go `func NewStore(filename string) (*Store, error)`. `unmarshal` is
`json.Unmarshal` into a `[]WaitlistEntry`, `fs` the file system. -/
def NewStore (unmarshal : String → Except Error (List WaitlistEntry))
    (fs : String → Location) (filename : String) : Except Error Store :=
  let s : Store := { entries := [], file := filename, nextID := 1 }
  match osStat (fs filename) with
  | none =>
    match osReadFile (fs filename) with
    | .error err => .error err
    | .ok data =>
      match unmarshal data with
      | .error err => .error err
      | .ok entries =>
        .ok { s with entries := entries, nextID := findMaxID entries s.nextID }
  | some _ => .ok s

/-! ## Add -/

/-- The loop `for _, e := range s.entries { if e.Email == email { return nil, false } }`
of `Add`: `true` when it returns from inside the loop. -/
def emailExists : List WaitlistEntry → String → Bool
  | [], _ => false
  | e :: rest, email => if e.Email = email then true else emailExists rest email

/-- What one call of `Store.Add` yields: the returned pair, the store after the
call, and whether `go s.Save()` was started. -/
structure AddResult where
  entry : Option WaitlistEntry
  accepted : Bool
  store : Store
  saveRequested : Bool
  deriving DecidableEq, Repr

/-- Go `func (s *Store) Add(email string) (*WaitlistEntry, bool)`, with the value of
`time.Now()` as `now`. -/
def Store.Add (s : Store) (email : String) (now : Time) : AddResult :=
  if emailExists s.entries email then
    { entry := none, accepted := false, store := s, saveRequested := false }
  else
    let entry : WaitlistEntry := { ID := s.nextID, Email := email, CreatedAt := now }
    { entry := some entry
      accepted := true
      store := { s with nextID := wrap64 (s.nextID + 1), entries := s.entries ++ [entry] }
      saveRequested := true }

/-- The store after a sequence of `Add` calls, each given as its email and the
instant `time.Now()` returns in it. -/
def Store.addAll : Store → List (String × Time) → Store
  | s, [] => s
  | s, (email, now) :: rest => Store.addAll (s.Add email now).store rest

/-- The entries returned with `accepted = true` by a sequence of `Add` calls, in
call order. -/
def Store.acceptedEntries : Store → List (String × Time) → List WaitlistEntry
  | _, [] => []
  | s, (email, now) :: rest =>
    match (s.Add email now).entry with
    | some e => e :: Store.acceptedEntries (s.Add email now).store rest
    | none => Store.acceptedEntries (s.Add email now).store rest

/-! ## GetAll -/

/-- The loop `for i, e := range s.entries { result[len(s.entries)-1-i] = e }` of
`GetAll`: `n` is `len(s.entries)`, the first list the entries still to visit, `i`
the index of the next one. -/
def getAllLoop (n : Nat) : List WaitlistEntry → Nat → List WaitlistEntry → List WaitlistEntry
  | [], _, result => result
  | e :: rest, i, result => getAllLoop n rest (i + 1) (result.set (n - 1 - i) e)

/-- Go `func (s *Store) GetAll() []WaitlistEntry`. -/
def Store.GetAll (s : Store) : List WaitlistEntry :=
  getAllLoop s.entries.length s.entries 0 (List.replicate s.entries.length WaitlistEntry.zero)

/-! ## Helper definitions for the statements -/

/-- The store `NewStore` builds when no snapshot exists. -/
def emptyStore (filename : String) : Store :=
  { entries := [], file := filename, nextID := 1 }

/-- A decoder that knows the listed documents and rejects every other input. -/
def unmarshalTable (table : List (String × List WaitlistEntry)) (data : String) :
    Except Error (List WaitlistEntry) :=
  match table.lookup data with
  | some entries => .ok entries
  | none => .error .decodeFailed

/-- The counter the specification asks of a reload: `max(id) + 1` over the loaded
entries, or `1` if there are none. -/
def specNextID : List WaitlistEntry → Int
  | [] => 1
  | e :: rest => (rest.foldl (fun m x => max m x.ID) e.ID) + 1

/-- A snapshot document with one entry, of id `-5`. -/
def docNegativeID : String :=
  "[\x7b\"id\":-5,\"email\":\"x@x.io\",\"created_at\":\"0001-01-01T00:00:00Z\"\x7d]"

/-- A snapshot document with one entry, of id `maxInt64 - 1`. -/
def docNearMaxID : String :=
  "[\x7b\"id\":9223372036854775806,\"email\":\"x@x.io\",\"created_at\":\"0001-01-01T00:00:00Z\"\x7d]"

/-- A snapshot document with one entry, of id `maxInt64`. -/
def docMaxID : String :=
  "[\x7b\"id\":9223372036854775807,\"email\":\"x@x.io\",\"created_at\":\"0001-01-01T00:00:00Z\"\x7d]"

/-- What `json.Unmarshal` makes of the three documents above. -/
def unmarshalDocs : String → Except Error (List WaitlistEntry) :=
  unmarshalTable
    [(docNegativeID, [⟨-5, "x@x.io", 0⟩]),
     (docNearMaxID, [⟨9223372036854775806, "x@x.io", 0⟩]),
     (docMaxID, [⟨9223372036854775807, "x@x.io", 0⟩])]

/-- The store loaded from `docNegativeID`. -/
def storeNegativeID : Store :=
  { entries := [⟨-5, "x@x.io", 0⟩], file := "waitlist.json", nextID := 1 }

/-- The store loaded from `docNearMaxID`. -/
def storeNearMaxID : Store :=
  { entries := [⟨9223372036854775806, "x@x.io", 0⟩], file := "waitlist.json",
    nextID := 9223372036854775807 }

/-- The store loaded from `docMaxID`. -/
def storeMaxID : Store :=
  { entries := [⟨9223372036854775807, "x@x.io", 0⟩], file := "waitlist.json",
    nextID := -9223372036854775808 }

/-- No two entries of the store share an email. -/
def Store.emailsDistinct (s : Store) : Prop :=
  (s.entries.map WaitlistEntry.Email).Nodup

/-- The store is one grown by `Add` alone from the empty store with counter 1: its
ids are the counter values `1, 2, ...` (wrapped to `int64`) in order, and the
counter is the next such value. -/
def Store.countsFromOne (s : Store) : Prop :=
  s.nextID = wrap64 (1 + (s.entries.length : Int)) ∧
  s.entries.map WaitlistEntry.ID =
    (List.range s.entries.length).map (fun i : Nat => wrap64 (1 + (i : Int)))

/-- The pairs `(entry, accepted)` returned by a sequence of `Add` calls, in call
order. -/
def Store.addResults : Store → List (String × Time) → List (Option WaitlistEntry × Bool)
  | _, [] => []
  | s, (email, now) :: rest =>
    ((s.Add email now).entry, (s.Add email now).accepted) ::
      Store.addResults (s.Add email now).store rest

/-- The calls turned into entries numbered `n`, `n + 1`, ... in call order. -/
def numbered : Int → List (String × Time) → List WaitlistEntry
  | _, [] => []
  | n, (email, now) :: rest => ⟨n, email, now⟩ :: numbered (n + 1) rest

/-! ## Save -/

/-- How a call of `os.WriteFile` goes on a path the process may open. -/
inductive WriteOutcome where
  /-- The file cannot be opened or created; nothing is written. -/
  | openFails (err : Error)
  /-- The file is opened and truncated, and the call fails after `written`
  characters of the data have reached it. -/
  | writeFails (written : Nat) (err : Error)
  /-- All the data is written and the file is closed. -/
  | succeeds
  deriving DecidableEq, Repr

/-- The content of the file at a location, if there is a file. -/
def Location.content : Location → Option String
  | .absent => none
  | .unreachable data => some data
  | .unreadable data => some data
  | .readable data => some data

/-- The location after `os.WriteFile` has put `data` there: a missing file is
created (mode 0644), an existing one is truncated and keeps its permissions. -/
def Location.withData : Location → String → Location
  | .absent, data => .readable data
  | .unreachable _, data => .unreachable data
  | .unreadable _, data => .unreadable data
  | .readable _, data => .readable data

/-- The first `n` characters of a document. -/
def truncateData (data : String) (n : Nat) : String := String.mk (data.data.take n)

/-- The location after, and the error of, `os.WriteFile(path, data, 0644)`. A file
on a path the process cannot resolve cannot be opened. Every other file is opened
for writing only, so also a file the process may not read (mode 0200) can be
written; whether the open succeeds is part of `io`. As the documentation of
`os.WriteFile` says, a failure mid-operation can leave the file in a partially
written state. -/
def osWriteFile (loc : Location) (data : String) (io : WriteOutcome) : Location × Option Error :=
  match loc with
  | .unreachable old => (.unreachable old, some .permission)
  | _ =>
    match io with
    | .openFails err => (loc, some err)
    | .writeFails written err => (loc.withData (truncateData data written), some err)
    | .succeeds => (loc.withData data, none)

/-- What one call of `Store.Save` yields: the returned error, the store after the
call, and the file system after the call. -/
structure SaveResult where
  err : Option Error
  store : Store
  fs : String → Location

/-- Go `func (s *Store) Save() error`. `marshal` is `json.MarshalIndent` of a
`[]WaitlistEntry` with indent of two spaces, `io` the way the write goes. -/
def Store.Save (marshal : List WaitlistEntry → Except Error String) (io : WriteOutcome)
    (s : Store) (fs : String → Location) : SaveResult :=
  match marshal s.entries with
  | .error err => { err := some err, store := s, fs := fs }
  | .ok data =>
    { err := (osWriteFile (fs s.file) data io).2
      store := s
      fs := fun path => if path = s.file then (osWriteFile (fs s.file) data io).1 else fs path }

/-- `GetAll` as a step on the store: the returned slice and the store after the
call. The body of `GetAll` assigns to its local `result` only. -/
def Store.GetAllStep (s : Store) : List WaitlistEntry × Store := (s.GetAll, s)

/-! ## The snapshot document

`json.MarshalIndent(entries, "", "  ")` on a `[]WaitlistEntry`, as `encoding/json`
of Go 1.22 and later writes it: an array of objects with the fields `id`, `email`
and `created_at`, one field per line, indented by two spaces per level. The
rendering of a `time.Time` depends on the location the Go value carries, which
the instants of this embedding do not record; it is the argument `formatTime`,
and `formatTimeUTC` is the rendering of an instant whose location is UTC. -/

/-- The decimal digits of a natural number, padded with zeros to `width`. -/
def padDigits (width n : Nat) : List Char :=
  List.replicate (width - (Nat.toDigits 10 n).length) '0' ++ Nat.toDigits 10 n

/-- The decimal rendering of an `int64`. -/
def intDigits (x : Int) : List Char :=
  if x < 0 then '-' :: Nat.toDigits 10 x.natAbs else Nat.toDigits 10 x.natAbs

/-- The lower-case hexadecimal digit of a value below 16. -/
def hexDigit (n : Nat) : Char := (Nat.toDigits 16 n).headD '0'

/-- The rendering of one character inside a JSON string, with the escaping of
`json.Marshal`: quote and backslash, the control characters, the characters
`<`, `>` and `&`, and the line separators U+2028 and U+2029. -/
def escapeChar (c : Char) : List Char :=
  if c = '"' then ['\\', '"']
  else if c = '\\' then ['\\', '\\']
  else if c = '\x08' then ['\\', 'b']
  else if c = '\x0c' then ['\\', 'f']
  else if c = '\n' then ['\\', 'n']
  else if c = '\r' then ['\\', 'r']
  else if c = '\t' then ['\\', 't']
  else if c.toNat < 32 ∨ c = '<' ∨ c = '>' ∨ c = '&' then
    ['\\', 'u', '0', '0', hexDigit (c.toNat / 16), hexDigit (c.toNat % 16)]
  else if c.toNat = 0x2028 then ['\\', 'u', '2', '0', '2', '8']
  else if c.toNat = 0x2029 then ['\\', 'u', '2', '0', '2', '9']
  else [c]

/-- A string as a JSON string. -/
def jsonString (text : String) : List Char :=
  '"' :: (text.data.flatMap escapeChar) ++ ['"']

/-- The fraction of a second in RFC 3339 with nanoseconds: nothing for a whole
second, otherwise a point and the digits up to the last one that is not zero. -/
def fractionDigits (nanos : Nat) : List Char :=
  if nanos = 0 then []
  else '.' :: ((padDigits 9 nanos).reverse.dropWhile (fun c => c = '0')).reverse

/-- `Time.MarshalJSON` without its quotes, for an instant whose location is UTC:
RFC 3339 with nanoseconds, and an error for a year outside 0 to 9999. The date
comes from the day count by the usual computation in eras of 400 years that
start on 1 March. -/
def formatTimeUTC (t : Time) : Except Error String :=
  let secs := t / 1000000000
  let nanos := (t % 1000000000).toNat
  let days := secs / 86400
  let sod := (secs % 86400).toNat
  let z := days + 306
  let era := z / 146097
  let doe := (z % 146097).toNat
  let yoe := (doe - doe / 1460 + doe / 36524 - doe / 146096) / 365
  let doy := doe - (365 * yoe + yoe / 4 - yoe / 100)
  let mp := (5 * doy + 2) / 153
  let day := doy - (153 * mp + 2) / 5 + 1
  let month := if mp < 10 then mp + 3 else mp - 9
  let year := (yoe : Int) + era * 400 + (if month ≤ 2 then 1 else 0)
  if year < 0 ∨ 10000 ≤ year then .error .encodeFailed
  else
    .ok (String.mk
      (padDigits 4 year.toNat ++ ['-'] ++ padDigits 2 month ++ ['-'] ++ padDigits 2 day ++
        ['T'] ++ padDigits 2 (sod / 3600) ++ [':'] ++ padDigits 2 (sod % 3600 / 60) ++ [':'] ++
        padDigits 2 (sod % 60) ++ fractionDigits nanos ++ ['Z']))

/-- The lines of one entry in the document. -/
def entryLines (formatTime : Time → Except Error String) (e : WaitlistEntry) :
    Except Error (List Char) :=
  match formatTime e.CreatedAt with
  | .error err => .error err
  | .ok stamp =>
    .ok ("  \x7b\n    \"id\": ".data ++ intDigits e.ID ++ ",\n    \"email\": ".data ++
      jsonString e.Email ++ ",\n    \"created_at\": ".data ++ jsonString stamp ++
      "\n  \x7d".data)

/-- The lines of the entries, separated by commas. -/
def entriesLines (formatTime : Time → Except Error String) :
    List WaitlistEntry → Except Error (List Char)
  | [] => .ok []
  | [e] => entryLines formatTime e
  | e :: rest =>
    match entryLines formatTime e, entriesLines formatTime rest with
    | .ok first, .ok others => .ok (first ++ ",\n".data ++ others)
    | .error err, _ => .error err
    | _, .error err => .error err

/-- The document `json.MarshalIndent(entries, "", "  ")`. The empty collection is
rendered as an empty slice; a nil slice, which `Add` never saves, would be `null`. -/
def marshalIndent (formatTime : Time → Except Error String) (entries : List WaitlistEntry) :
    Except Error String :=
  match entries with
  | [] => .ok "[]"
  | _ =>
    match entriesLines formatTime entries with
    | .ok body => .ok (String.mk ("[\n".data ++ body ++ "\n]".data))
    | .error err => .error err

/-- The document `Save` writes for the store with the id `maxInt64 - 1`. -/
def docNearMaxIDSaved : String :=
  "[\n  \x7b\n    \"id\": 9223372036854775806,\n    \"email\": \"x@x.io\",\n    \"created_at\": \"0001-01-01T00:00:00Z\"\n  \x7d\n]"

/-- What `json.Unmarshal` makes of `docNearMaxIDSaved`. -/
def unmarshalSavedDocs : String → Except Error (List WaitlistEntry) :=
  unmarshalTable [(docNearMaxIDSaved, [⟨9223372036854775806, "x@x.io", 0⟩])]

/-- A `Save` of the store with the id `maxInt64 - 1` over the snapshot with the id
`-5`, whose write fails after 10 characters. -/
def brokenSave : SaveResult :=
  storeNearMaxID.Save (marshalIndent formatTimeUTC) (WriteOutcome.writeFails 10 Error.io)
    (fun _ => Location.readable docNegativeID)

/-- A `Save` of the store with the id `maxInt64 - 1` that succeeds on a file the
process may write but not read (mode 0200), which held the snapshot with the id
`-5`. -/
def writeOnlySave : SaveResult :=
  storeNearMaxID.Save (marshalIndent formatTimeUTC) WriteOutcome.succeeds
    (fun _ => Location.unreadable docNegativeID)

/-- The counter is at least 1 and above every id of the collection. -/
def Store.counterInv (s : Store) : Prop :=
  1 ≤ s.nextID ∧ ∀ e ∈ s.entries, e.ID < s.nextID

/-! ## Concurrent calls of Add

Goroutines that run `Add` on one store, interleaved step by step. A step is what a
goroutine does between two points where another goroutine may run: getting the
write lock of `mu`, the duplicate loop, building the entry and `s.nextID++`, the
`append`, the deferred `Unlock`. Goroutines that only read (`GetAll`, `Save`)
are left out: they hold the read lock and change neither the store nor the
outcome of an `Add`. -/

/-- Where a goroutine stands in the body of `Add`. -/
inductive AddPhase where
  /-- Called, `s.mu.Lock()` has not returned yet. -/
  | waiting
  /-- Holds the lock, before the duplicate loop. -/
  | checking
  /-- The loop found no duplicate; before `entry := ...` and `s.nextID++`. -/
  | checked
  /-- The entry is built and the counter advanced; before `append`. -/
  | built (entry : WaitlistEntry)
  /-- The return value is fixed; before the deferred `s.mu.Unlock()`. -/
  | unlocking (entry : Option WaitlistEntry) (accepted : Bool)
  /-- The call has returned. -/
  | returned (entry : Option WaitlistEntry) (accepted : Bool)
  deriving DecidableEq, Repr

/-- One call `Add(email)` in progress, with the instant its `time.Now()` yields. -/
structure AddCall where
  email : String
  now : Time
  phase : AddPhase
  deriving DecidableEq, Repr

/-- The store shared by the goroutines, the holder of the write lock, and the calls. -/
structure Shared where
  store : Store
  writer : Option Nat
  calls : List AddCall
  deriving DecidableEq, Repr

/-- The goroutine is between `Lock()` and `Unlock()`. -/
def AddPhase.holdsLock : AddPhase → Bool
  | .checking => true
  | .checked => true
  | .built _ => true
  | .unlocking _ _ => true
  | _ => false

/-- The goroutine has passed the duplicate loop and not yet appended. -/
def AddPhase.passed : AddPhase → Bool
  | .checked => true
  | .built _ => true
  | _ => false

/-- The call returns, or has returned, `accepted = true`. -/
def AddPhase.accepts : AddPhase → Bool
  | .unlocking _ accepted => accepted
  | .returned _ accepted => accepted
  | _ => false

/-- The call returns, or has returned, `accepted = false`. -/
def AddPhase.rejects : AddPhase → Bool
  | .unlocking _ accepted => !accepted
  | .returned _ accepted => !accepted
  | _ => false

/-- The call has returned with this value of `accepted`. -/
def AddPhase.returnedWith (b : Bool) : AddPhase → Bool
  | .returned _ accepted => accepted == b
  | _ => false

/-- The call has returned. -/
def AddPhase.isReturned : AddPhase → Bool
  | .returned _ _ => true
  | _ => false

/-- One step of goroutine `i`. A goroutine that waits for a held lock, or has
returned, or does not exist, leaves the state as it is. -/
def Shared.step (σ : Shared) (i : Nat) : Shared :=
  match σ.calls[i]? with
  | none => σ
  | some c =>
    match c.phase with
    | .waiting =>
      match σ.writer with
      | none => { σ with writer := some i, calls := σ.calls.set i { c with phase := .checking } }
      | some _ => σ
    | .checking =>
      if emailExists σ.store.entries c.email then
        { σ with calls := σ.calls.set i { c with phase := .unlocking none false } }
      else
        { σ with calls := σ.calls.set i { c with phase := .checked } }
    | .checked =>
      { σ with
        store := { σ.store with nextID := wrap64 (σ.store.nextID + 1) }
        calls := σ.calls.set i
          { c with phase := .built { ID := σ.store.nextID, Email := c.email, CreatedAt := c.now } } }
    | .built entry =>
      { σ with
        store := { σ.store with entries := σ.store.entries ++ [entry] }
        calls := σ.calls.set i { c with phase := .unlocking (some entry) true } }
    | .unlocking entry accepted =>
      { σ with writer := none, calls := σ.calls.set i { c with phase := .returned entry accepted } }
    | .returned _ _ => σ

/-- The state after the goroutines have taken steps in the order of the schedule. -/
def Shared.run (σ : Shared) (schedule : List Nat) : Shared :=
  schedule.foldl Shared.step σ

/-- The state in which one call of `Add` with the same email has been made for
each of the instants, and none has got the lock yet. -/
def Shared.start (s : Store) (email : String) (times : List Time) : Shared :=
  { store := s, writer := none, calls := times.map (fun t => ⟨email, t, .waiting⟩) }

/-- The invariant of concurrent calls that all carry `email`, on a store that did
not hold `email` at the start. -/
structure Shared.Inv (email : String) (σ : Shared) : Prop where
  emails : ∀ (j : Nat) (c : AddCall), σ.calls[j]? = some c → c.email = email
  lock : ∀ (j : Nat) (c : AddCall), σ.calls[j]? = some c →
    (c.phase.holdsLock = true ↔ σ.writer = some j)
  passed : ∀ (j : Nat) (c : AddCall), σ.calls[j]? = some c → c.phase.passed = true →
    emailExists σ.store.entries email = false
  built : ∀ (j : Nat) (c : AddCall) (entry : WaitlistEntry), σ.calls[j]? = some c →
    c.phase = AddPhase.built entry → entry.Email = email
  rejected : ∀ (j : Nat) (c : AddCall), σ.calls[j]? = some c → c.phase.rejects = true →
    emailExists σ.store.entries email = true
  count : σ.calls.countP (fun c => c.phase.accepts) =
    if emailExists σ.store.entries email then 1 else 0

/-! ## isValidEmail and joinWaitlist

The pattern of `isValidEmail` is given as a syntax tree of the regular
expressions that Go's `regexp` package accepts, restricted to the constructs the
pattern uses. The pattern starts with `^` and ends with `$` and sets no flag, so
`MatchString` reports whether the whole text is in the language of what stands
between them; `fullMatch` decides that by derivatives. -/

/-- Regular expressions: no match, the empty text, one character, a character
class given by its ranges (a single character is a range of one), concatenation,
alternation and repetition. -/
inductive Regex where
  | never
  | eps
  | chr (c : Char)
  | cls (ranges : List (Char × Char))
  | seq (r s : Regex)
  | alt (r s : Regex)
  | star (r : Regex)
  deriving DecidableEq, Repr

/-- The character lies in one of the ranges of the class. -/
def inClass (ranges : List (Char × Char)) (c : Char) : Bool :=
  ranges.any (fun r => decide (r.1.toNat ≤ c.toNat) && decide (c.toNat ≤ r.2.toNat))

/-- The expression matches the empty text. -/
def Regex.nullable : Regex → Bool
  | .never => false
  | .eps => true
  | .chr _ => false
  | .cls _ => false
  | .seq r s => r.nullable && s.nullable
  | .alt r s => r.nullable || s.nullable
  | .star _ => true

/-- The expression for what may follow the character `c`. -/
def Regex.deriv : Regex → Char → Regex
  | .never, _ => .never
  | .eps, _ => .never
  | .chr a, c => if a = c then .eps else .never
  | .cls ranges, c => if inClass ranges c then .eps else .never
  | .seq r s, c =>
    if r.nullable then .alt (.seq (r.deriv c) s) (s.deriv c) else .seq (r.deriv c) s
  | .alt r s, c => .alt (r.deriv c) (s.deriv c)
  | .star r, c => .seq (r.deriv c) (.star r)

/-- The whole text is in the language of the expression. -/
def Regex.fullMatch (r : Regex) (text : List Char) : Bool :=
  (text.foldl Regex.deriv r).nullable

/-- The language of an expression. -/
inductive Regex.Matches : Regex → List Char → Prop where
  | eps : Regex.Matches .eps []
  | chr (c : Char) : Regex.Matches (.chr c) [c]
  | cls {ranges : List (Char × Char)} {c : Char} :
    inClass ranges c = true → Regex.Matches (.cls ranges) [c]
  | seq {r s : Regex} {x y : List Char} :
    Regex.Matches r x → Regex.Matches s y → Regex.Matches (.seq r s) (x ++ y)
  | altL {r s : Regex} {x : List Char} : Regex.Matches r x → Regex.Matches (.alt r s) x
  | altR {r s : Regex} {x : List Char} : Regex.Matches s x → Regex.Matches (.alt r s) x
  | starNil {r : Regex} : Regex.Matches (.star r) []
  | starCons {r : Regex} {x y : List Char} :
    Regex.Matches r x → Regex.Matches (.star r) y → Regex.Matches (.star r) (x ++ y)

/-- The expression `r+`. -/
def Regex.plus (r : Regex) : Regex := .seq r (.star r)

/-- The expression `r{2,}`. -/
def Regex.atLeastTwo (r : Regex) : Regex := .seq r (.seq r (.star r))

/-- The class `[a-zA-Z0-9._%+-]`. -/
def localClass : List (Char × Char) :=
  [('a', 'z'), ('A', 'Z'), ('0', '9'), ('.', '.'), ('_', '_'), ('%', '%'), ('+', '+'),
   ('-', '-')]

/-- The class `[a-zA-Z0-9.-]`. -/
def domainClass : List (Char × Char) :=
  [('a', 'z'), ('A', 'Z'), ('0', '9'), ('.', '.'), ('-', '-')]

/-- The class `[a-zA-Z]`. -/
def letterClass : List (Char × Char) := [('a', 'z'), ('A', 'Z')]

/-- The pattern `[a-zA-Z0-9._%+-]+@[a-zA-Z0-9.-]+\.[a-zA-Z]{2,}` between `^` and `$`. -/
def emailRegex : Regex :=
  .seq (Regex.plus (.cls localClass))
    (.seq (.chr '@')
      (.seq (Regex.plus (.cls domainClass))
        (.seq (.chr '.') (Regex.atLeastTwo (.cls letterClass)))))

/-- Go `func isValidEmail(email string) bool`. -/
def isValidEmail (email : String) : Bool := emailRegex.fullMatch email.data

/-- What `joinWaitlist` does: the status and the body it writes, the store after
the call, and the argument of `store.Add` if it was called. -/
structure JoinResult where
  status : Nat
  success : Bool
  message : String
  store : Store
  addCalled : Option String
  deriving DecidableEq, Repr

/-- Go `func joinWaitlist(w http.ResponseWriter, r *http.Request)`, on the global
`store`. `decode` is the JSON decoding of the request body into a
`WaitlistRequest`, yielding its `Email`. The reply to a wrong method is plain
text; the others are JSON `WaitlistResponse` values. -/
def joinWaitlist (decode : String → Except Error String) (s : Store) (method body : String)
    (now : Time) : JoinResult :=
  if method ≠ "POST" then
    { status := 405, success := false, message := "Method not allowed", store := s,
      addCalled := none }
  else
    match decode body with
    | .error _ =>
      { status := 400, success := false, message := "Invalid JSON", store := s,
        addCalled := none }
    | .ok email =>
      if email = "" then
        { status := 400, success := false, message := "Email is required", store := s,
          addCalled := none }
      else if !isValidEmail email then
        { status := 400, success := false, message := "Invalid email format", store := s,
          addCalled := none }
      else if !(s.Add email now).accepted then
        { status := 409, success := false, message := "Email already registered",
          store := (s.Add email now).store, addCalled := some email }
      else
        { status := 201, success := true, message := "Successfully joined the waitlist!",
          store := (s.Add email now).store, addCalled := some email }

/-- A request body that carries the email `a@x.io`. -/
def requestDoc : String := "\x7b\"email\":\"a@x.io\"\x7d"

/-- What the JSON decoder makes of `requestDoc`; it rejects every other body. -/
def decodeRequestDoc (body : String) : Except Error String :=
  if body = requestDoc then .ok "a@x.io" else .error .decodeFailed

/-- The schedule that lets goroutines `0`, ..., `m - 1` run one after the other,
five steps each. -/
def serialSchedule : Nat → List Nat
  | 0 => []
  | m + 1 => serialSchedule m ++ [m, m, m, m, m]

/-! ## Lemmas on machine integers -/

theorem wrap64_eq_self {x : Int} (h : isInt64 x) : wrap64 x = x := by
  unfold isInt64 minInt64 maxInt64 at h
  unfold wrap64
  omega

theorem isInt64_wrap64 (x : Int) : isInt64 (wrap64 x) := by
  unfold isInt64 minInt64 maxInt64 wrap64
  omega

theorem wrap64_succ_wrap64 (x : Int) : wrap64 (wrap64 x + 1) = wrap64 (x + 1) := by
  unfold wrap64
  omega

theorem wrap64_inj_of_lt {i j : Nat} (hi : i < 2 ^ 64) (hj : j < 2 ^ 64)
    (h : wrap64 (1 + (i : Int)) = wrap64 (1 + (j : Int))) : i = j := by
  unfold wrap64 at h
  have hi2 : (i : Int) < 2 ^ 64 := by exact_mod_cast hi
  have hj2 : (j : Int) < 2 ^ 64 := by exact_mod_cast hj
  omega

/-! ## Lemmas on Add -/

theorem emailExists_eq_true_iff (es : List WaitlistEntry) (email : String) :
    emailExists es email = true ↔ ∃ e ∈ es, e.Email = email := by
  induction es with
  | nil => simp [emailExists]
  | cons e rest ih =>
    unfold emailExists
    by_cases h : e.Email = email
    · simp [h]
    · simp [h, ih]

theorem emailExists_eq_false_iff (es : List WaitlistEntry) (email : String) :
    emailExists es email = false ↔ ∀ e ∈ es, e.Email ≠ email := by
  rw [← Bool.not_eq_true, emailExists_eq_true_iff]
  simp

theorem Add_of_exists {s : Store} {email : String} (now : Time)
    (h : emailExists s.entries email = true) :
    s.Add email now = { entry := none, accepted := false, store := s, saveRequested := false } := by
  simp [Store.Add, h]

theorem Add_of_not_exists {s : Store} {email : String} (now : Time)
    (h : emailExists s.entries email = false) :
    s.Add email now =
      { entry := some ⟨s.nextID, email, now⟩
        accepted := true
        store := { entries := s.entries ++ [⟨s.nextID, email, now⟩]
                   file := s.file
                   nextID := wrap64 (s.nextID + 1) }
        saveRequested := true } := by
  simp [Store.Add, h]

theorem emailsDistinct_Add {s : Store} (h : s.emailsDistinct) (email : String) (now : Time) :
    (s.Add email now).store.emailsDistinct := by
  cases hex : emailExists s.entries email with
  | true => rw [Add_of_exists now hex]; exact h
  | false =>
    rw [Add_of_not_exists now hex]
    unfold Store.emailsDistinct at h ⊢
    rw [emailExists_eq_false_iff] at hex
    simp only [List.map_append, List.map_cons, List.map_nil]
    rw [List.nodup_append]
    refine ⟨h, List.nodup_singleton _, ?_⟩
    intro x hx hx2
    simp only [List.mem_singleton] at hx2
    subst hx2
    obtain ⟨e, he, heq⟩ := List.mem_map.mp hx
    exact hex e he heq

theorem countsFromOne_Add {s : Store} (h : s.countsFromOne) (email : String) (now : Time) :
    (s.Add email now).store.countsFromOne := by
  cases hex : emailExists s.entries email with
  | true => rw [Add_of_exists now hex]; exact h
  | false =>
    rw [Add_of_not_exists now hex]
    obtain ⟨h1, h2⟩ := h
    unfold Store.countsFromOne
    simp only [List.length_append, List.length_singleton, List.map_append, List.map_cons,
      List.map_nil, List.range_succ]
    refine ⟨?_, ?_⟩
    · rw [h1, wrap64_succ_wrap64]
      congr 1
    · rw [h2, h1]

theorem emailsDistinct_addAll (calls : List (String × Time)) :
    ∀ s : Store, s.emailsDistinct → (s.addAll calls).emailsDistinct := by
  induction calls with
  | nil => intro s h; exact h
  | cons c rest ih =>
    intro s h
    obtain ⟨email, now⟩ := c
    exact ih _ (emailsDistinct_Add h email now)

theorem countsFromOne_addAll (calls : List (String × Time)) :
    ∀ s : Store, s.countsFromOne → (s.addAll calls).countsFromOne := by
  induction calls with
  | nil => intro s h; exact h
  | cons c rest ih =>
    intro s h
    obtain ⟨email, now⟩ := c
    exact ih _ (countsFromOne_Add h email now)

theorem ids_nodup_of_countsFromOne {s : Store} (h : s.countsFromOne)
    (hlen : s.entries.length ≤ 2 ^ 64) : (s.entries.map WaitlistEntry.ID).Nodup := by
  rw [h.2]
  refine List.Nodup.map_on ?_ (List.nodup_range _)
  intro i hi j hj hij
  rw [List.mem_range] at hi hj
  exact wrap64_inj_of_lt (by omega) (by omega) hij

/-! ## Lemmas on NewStore -/

theorem NewStore_of_stat_error (unmarshal : String → Except Error (List WaitlistEntry))
    (fs : String → Location) (filename : String) (err : Error)
    (h : osStat (fs filename) = some err) :
    NewStore unmarshal fs filename = .ok (emptyStore filename) := by
  simp [NewStore, h, emptyStore]

theorem NewStore_of_decoded {unmarshal : String → Except Error (List WaitlistEntry)}
    {fs : String → Location} {filename data : String} {es : List WaitlistEntry}
    (hfs : fs filename = Location.readable data) (hdec : unmarshal data = .ok es) :
    NewStore unmarshal fs filename =
      .ok { entries := es, file := filename, nextID := findMaxID es 1 } := by
  simp [NewStore, hfs, osStat, osReadFile, hdec]

theorem findMaxID_isInt64 (es : List WaitlistEntry) :
    ∀ n : Int, isInt64 n → isInt64 (findMaxID es n) := by
  induction es with
  | nil => intro n hn; exact hn
  | cons e rest ih =>
    intro n hn
    unfold findMaxID
    split
    · exact ih _ (isInt64_wrap64 _)
    · exact ih _ hn

theorem NewStore_nextID_eq {unmarshal : String → Except Error (List WaitlistEntry)}
    {fs : String → Location} {filename : String} {s : Store}
    (h : NewStore unmarshal fs filename = .ok s) : s.nextID = findMaxID s.entries 1 := by
  unfold NewStore at h
  split at h
  · split at h
    · cases h
    · split at h
      · cases h
      · cases h; rfl
  · cases h; rfl

theorem NewStore_nextID_isInt64 {unmarshal : String → Except Error (List WaitlistEntry)}
    {fs : String → Location} {filename : String} {s : Store}
    (h : NewStore unmarshal fs filename = .ok s) : isInt64 s.nextID := by
  rw [NewStore_nextID_eq h]
  exact findMaxID_isInt64 _ 1 (by decide)

/-- Below `maxInt64` the loop of `NewStore` ends above its start value and above
every id it has seen. -/
theorem findMaxID_bounds (es : List WaitlistEntry) :
    ∀ n : Int, 1 ≤ n → (∀ e ∈ es, e.ID < maxInt64) →
      n ≤ findMaxID es n ∧ ∀ e ∈ es, e.ID < findMaxID es n := by
  induction es with
  | nil => intro n _ _; exact ⟨le_refl _, by simp⟩
  | cons e rest ih =>
    intro n hn hids
    have he : e.ID < maxInt64 := hids e (List.mem_cons_self _ _)
    have hrest : ∀ x ∈ rest, x.ID < maxInt64 := fun x hx => hids x (List.mem_cons_of_mem _ hx)
    unfold findMaxID
    split
    · rename_i hge
      have hw : wrap64 (e.ID + 1) = e.ID + 1 := by
        apply wrap64_eq_self
        unfold isInt64 minInt64
        unfold maxInt64 at he ⊢
        omega
      rw [hw]
      obtain ⟨h1, h2⟩ := ih (e.ID + 1) (by omega) hrest
      refine ⟨by omega, ?_⟩
      intro x hx
      rcases List.mem_cons.mp hx with rfl | hx
      · omega
      · exact h2 x hx
    · rename_i hlt
      obtain ⟨h1, h2⟩ := ih n hn hrest
      refine ⟨h1, ?_⟩
      intro x hx
      rcases List.mem_cons.mp hx with rfl | hx
      · omega
      · exact h2 x hx

/-- Below `maxInt64` the loop of `NewStore` computes a running maximum. -/
theorem findMaxID_eq_foldl (es : List WaitlistEntry) :
    ∀ n : Int, 1 ≤ n → (∀ e ∈ es, e.ID < maxInt64) →
      findMaxID es n = es.foldl (fun m x => max m (x.ID + 1)) n := by
  induction es with
  | nil => intro n _ _; rfl
  | cons e rest ih =>
    intro n hn hids
    have he : e.ID < maxInt64 := hids e (List.mem_cons_self _ _)
    have hrest : ∀ x ∈ rest, x.ID < maxInt64 := fun x hx => hids x (List.mem_cons_of_mem _ hx)
    unfold findMaxID
    simp only [List.foldl_cons]
    split
    · rename_i hge
      have hw : wrap64 (e.ID + 1) = e.ID + 1 := by
        apply wrap64_eq_self
        unfold isInt64 minInt64
        unfold maxInt64 at he ⊢
        omega
      rw [hw, ih (e.ID + 1) (by omega) hrest]
      congr 1
      omega
    · rename_i hlt
      rw [ih n hn hrest]
      congr 1
      omega

theorem foldl_max_succ (es : List WaitlistEntry) :
    ∀ a : Int, es.foldl (fun m x => max m (x.ID + 1)) (a + 1) =
      es.foldl (fun m x => max m x.ID) a + 1 := by
  induction es with
  | nil => intro a; rfl
  | cons e rest ih =>
    intro a
    simp only [List.foldl_cons]
    rw [← ih]
    congr 1
    omega

theorem foldl_max_init (es : List WaitlistEntry) :
    ∀ n b : Int, es.foldl (fun m x => max m (x.ID + 1)) (max n b) =
      max n (es.foldl (fun m x => max m (x.ID + 1)) b) := by
  induction es with
  | nil => intro n b; rfl
  | cons e rest ih =>
    intro n b
    simp only [List.foldl_cons]
    rw [max_assoc, ih]

/-- Below `maxInt64` the loop of `NewStore`, started at 1, ends at the larger of
1 and `max(id) + 1`. -/
theorem findMaxID_eq_spec (es : List WaitlistEntry) (hids : ∀ e ∈ es, e.ID < maxInt64) :
    findMaxID es 1 = max 1 (specNextID es) := by
  rw [findMaxID_eq_foldl es 1 (le_refl _) hids]
  cases es with
  | nil => rfl
  | cons e rest =>
    simp only [List.foldl_cons, specNextID]
    rw [foldl_max_init, foldl_max_succ]

theorem acceptedEntries_of_exists {s : Store} {email : String} (now : Time)
    (rest : List (String × Time)) (h : emailExists s.entries email = true) :
    s.acceptedEntries ((email, now) :: rest) = s.acceptedEntries rest := by
  simp [Store.acceptedEntries, Add_of_exists now h]

theorem acceptedEntries_of_not_exists {s : Store} {email : String} (now : Time)
    (rest : List (String × Time)) (h : emailExists s.entries email = false) :
    s.acceptedEntries ((email, now) :: rest) =
      ⟨s.nextID, email, now⟩ ::
        Store.acceptedEntries
          { entries := s.entries ++ [⟨s.nextID, email, now⟩]
            file := s.file
            nextID := wrap64 (s.nextID + 1) } rest := by
  simp [Store.acceptedEntries, Add_of_not_exists now h]

/-- While the counter does not pass `maxInt64`, the ids `Add` hands out start at
the counter and increase strictly. -/
theorem acceptedEntries_no_wrap (calls : List (String × Time)) :
    ∀ s : Store, minInt64 ≤ s.nextID →
      s.nextID + ((s.acceptedEntries calls).length : Int) ≤ 2 ^ 63 →
      (∀ a ∈ s.acceptedEntries calls, s.nextID ≤ a.ID) ∧
      ((s.acceptedEntries calls).map WaitlistEntry.ID).Pairwise (· < ·) := by
  induction calls with
  | nil => intro s _ _; simp [Store.acceptedEntries]
  | cons c rest ih =>
    intro s hmin hlen
    obtain ⟨email, now⟩ := c
    cases hex : emailExists s.entries email with
    | true =>
      rw [acceptedEntries_of_exists now rest hex] at hlen ⊢
      exact ih s hmin hlen
    | false =>
      rw [acceptedEntries_of_not_exists now rest hex] at hlen ⊢
      simp only [List.length_cons, Nat.cast_add, Nat.cast_one] at hlen
      by_cases hn : s.nextID + 1 ≤ maxInt64
      · have hw : wrap64 (s.nextID + 1) = s.nextID + 1 := by
          apply wrap64_eq_self
          unfold isInt64
          unfold minInt64 at hmin ⊢
          omega
        rw [hw] at hlen ⊢
        obtain ⟨h1, h2⟩ := ih ⟨s.entries ++ [⟨s.nextID, email, now⟩], s.file, s.nextID + 1⟩
          (by unfold minInt64 at hmin ⊢; simp only; omega) (by simp only; omega)
        simp only at h1
        refine ⟨?_, ?_⟩
        · intro a ha
          rcases List.mem_cons.mp ha with rfl | ha
          · exact le_refl _
          · have := h1 a ha
            omega
        · simp only [List.map_cons, List.pairwise_cons]
          refine ⟨?_, h2⟩
          intro x hx
          obtain ⟨a, ha, rfl⟩ := List.mem_map.mp hx
          have := h1 a ha
          omega
      · have hzero : (Store.acceptedEntries
            { entries := s.entries ++ [⟨s.nextID, email, now⟩]
              file := s.file
              nextID := wrap64 (s.nextID + 1) } rest).length = 0 := by
          unfold maxInt64 at hn
          omega
        rw [List.length_eq_zero] at hzero
        rw [hzero]
        simp

/-- What `NewStore` returns, by what the file system holds at the path. -/
theorem NewStore_by_location (unmarshal : String → Except Error (List WaitlistEntry))
    (fs : String → Location) (filename : String) :
    (fs filename = Location.absent →
      NewStore unmarshal fs filename = .ok (emptyStore filename)) ∧
    (∀ data, fs filename = Location.unreachable data →
      NewStore unmarshal fs filename = .ok (emptyStore filename)) ∧
    (∀ data, fs filename = Location.unreadable data →
      NewStore unmarshal fs filename = .error Error.permission) ∧
    (∀ data err, fs filename = Location.readable data → unmarshal data = .error err →
      NewStore unmarshal fs filename = .error err) := by
  refine ⟨?_, ?_, ?_, ?_⟩
  · intro h
    exact NewStore_of_stat_error unmarshal fs filename Error.notExist (by rw [h]; rfl)
  · intro data h
    exact NewStore_of_stat_error unmarshal fs filename Error.permission (by rw [h]; rfl)
  · intro data h
    simp [NewStore, h, osStat, osReadFile]
  · intro data err h hdec
    simp [NewStore, h, osStat, osReadFile, hdec]

/-! ## Lemmas on GetAll -/

/-- Loop invariant of `GetAll`: with the entries `pre` visited, the result holds
them reversed in its last places and zero values before. -/
theorem getAllLoop_spec (rest : List WaitlistEntry) :
    ∀ pre : List WaitlistEntry,
      getAllLoop (pre.length + rest.length) rest pre.length
        (List.replicate rest.length WaitlistEntry.zero ++ pre.reverse) = (pre ++ rest).reverse := by
  induction rest with
  | nil => intro pre; simp [getAllLoop]
  | cons e rest ih =>
    intro pre
    unfold getAllLoop
    have hidx : pre.length + (e :: rest).length - 1 - pre.length = rest.length := by
      simp only [List.length_cons]; omega
    have hset : (List.replicate (e :: rest).length WaitlistEntry.zero ++ pre.reverse).set
        rest.length e = List.replicate rest.length WaitlistEntry.zero ++ (pre ++ [e]).reverse := by
      simp only [List.length_cons, List.replicate_succ', List.append_assoc, List.singleton_append,
        List.reverse_append, List.reverse_cons, List.reverse_nil, List.nil_append]
      rw [List.set_append_right _ _ (by simp)]
      simp
    rw [hidx, hset]
    have h := ih (pre ++ [e])
    simp only [List.length_append, List.length_singleton, List.append_assoc,
      List.singleton_append] at h
    have hlen : pre.length + (e :: rest).length = pre.length + 1 + rest.length := by
      simp only [List.length_cons]; omega
    rw [hlen]
    exact h

theorem GetAll_eq_reverse (s : Store) : s.GetAll = s.entries.reverse := by
  have h := getAllLoop_spec s.entries []
  simpa [Store.GetAll] using h

/-! ## Lemmas on sequences of distinct emails -/

theorem numbered_length (calls : List (String × Time)) :
    ∀ n : Int, (numbered n calls).length = calls.length := by
  induction calls with
  | nil => intro n; rfl
  | cons c rest ih =>
    intro n
    obtain ⟨email, now⟩ := c
    simp [numbered, ih]

theorem numbered_ids (calls : List (String × Time)) :
    ∀ n : Int, (numbered n calls).map WaitlistEntry.ID =
      (List.range calls.length).map (fun k : Nat => n + (k : Int)) := by
  induction calls with
  | nil => intro n; rfl
  | cons c rest ih =>
    intro n
    obtain ⟨email, now⟩ := c
    simp only [numbered, List.map_cons, List.length_cons, List.range_succ_eq_map, ih,
      List.map_map]
    refine congrArg₂ List.cons (by simp) ?_
    apply List.map_congr_left
    intro k _
    simp only [Function.comp_apply, Nat.cast_succ]
    omega

theorem numbered_getElem? (calls : List (String × Time)) :
    ∀ (n : Int) (k : Nat) (email : String) (now : Time), calls[k]? = some (email, now) →
      (numbered n calls)[k]? = some ⟨n + (k : Int), email, now⟩ := by
  induction calls with
  | nil => intro n k email now h; simp at h
  | cons c rest ih =>
    intro n k email now h
    obtain ⟨e0, t0⟩ := c
    cases k with
    | zero =>
      simp only [List.getElem?_cons_zero, Option.some.injEq, Prod.mk.injEq] at h
      obtain ⟨rfl, rfl⟩ := h
      simp [numbered]
    | succ k =>
      simp only [List.getElem?_cons_succ] at h
      simp only [numbered, List.getElem?_cons_succ]
      rw [ih (n + 1) k email now h]
      simp only [Nat.cast_succ, Option.some.injEq, WaitlistEntry.mk.injEq, and_true]
      omega

/-- Emails that are pairwise distinct and new to the store are all accepted, and
numbered from the counter on, while the counter does not pass `maxInt64`. -/
theorem addResults_of_distinct (calls : List (String × Time)) :
    ∀ s : Store, minInt64 ≤ s.nextID → s.nextID + (calls.length : Int) ≤ 2 ^ 63 →
      (calls.map Prod.fst).Nodup →
      (∀ c ∈ calls, ∀ e ∈ s.entries, e.Email ≠ c.1) →
      s.addResults calls = (numbered s.nextID calls).map (fun e => (some e, true)) ∧
      (s.addAll calls).entries = s.entries ++ numbered s.nextID calls := by
  induction calls with
  | nil => intro s _ _ _ _; simp [Store.addResults, Store.addAll, numbered]
  | cons c rest ih =>
    intro s hmin hlen hnd hnew
    obtain ⟨email, now⟩ := c
    have hex : emailExists s.entries email = false :=
      (emailExists_eq_false_iff s.entries email).mpr
        (fun e he => hnew (email, now) (List.mem_cons_self _ _) e he)
    simp only [List.map_cons, List.nodup_cons] at hnd
    simp only [List.length_cons, Nat.cast_succ] at hlen
    by_cases hrest : rest = []
    · subst hrest
      simp [Store.addResults, Store.addAll, numbered, Add_of_not_exists now hex]
    · have hpos : 0 < rest.length := List.length_pos.mpr hrest
      have hw : wrap64 (s.nextID + 1) = s.nextID + 1 := by
        apply wrap64_eq_self
        unfold isInt64 maxInt64
        unfold minInt64 at hmin ⊢
        omega
      have hstep := ih ⟨s.entries ++ [⟨s.nextID, email, now⟩], s.file, s.nextID + 1⟩
        (by unfold minInt64 at hmin ⊢; simp only; omega) (by simp only; omega) hnd.2
        (by
          intro c hc e he
          simp only [List.mem_append, List.mem_singleton] at he
          rcases he with he | rfl
          · exact hnew c (List.mem_cons_of_mem _ hc) e he
          · intro heq
            exact hnd.1 (List.mem_map.mpr ⟨c, hc, heq.symm⟩))
      simp only at hstep
      simp only [Store.addResults, Store.addAll, numbered, Add_of_not_exists now hex, hw,
        List.map_cons, hstep.1, hstep.2, List.append_assoc, List.singleton_append, and_self]

/-! ## Lemmas on Save -/

theorem Save_store (marshal : List WaitlistEntry → Except Error String) (io : WriteOutcome)
    (s : Store) (fs : String → Location) : (s.Save marshal io fs).store = s := by
  unfold Store.Save
  split <;> rfl

theorem Save_of_encode_error {marshal : List WaitlistEntry → Except Error String}
    (io : WriteOutcome) {s : Store} (fs : String → Location) {err : Error}
    (h : marshal s.entries = .error err) :
    s.Save marshal io fs = { err := some err, store := s, fs := fs } := by
  simp [Store.Save, h]

theorem Save_of_encoded {marshal : List WaitlistEntry → Except Error String}
    (io : WriteOutcome) {s : Store} (fs : String → Location) {data : String}
    (h : marshal s.entries = .ok data) :
    s.Save marshal io fs =
      { err := (osWriteFile (fs s.file) data io).2
        store := s
        fs := fun path => if path = s.file then (osWriteFile (fs s.file) data io).1
          else fs path } := by
  simp [Store.Save, h]

/-- A write that returns no error leaves a file with all the data. -/
theorem osWriteFile_of_no_error {loc : Location} {data : String} {io : WriteOutcome}
    (h : (osWriteFile loc data io).2 = none) :
    (osWriteFile loc data io).1.content = some data := by
  cases loc <;> cases io <;> simp [osWriteFile, Location.withData, Location.content] at h ⊢

/-- A write leaves the location as it was, or with the data, or with a truncation
of the data. -/
theorem osWriteFile_cases (loc : Location) (data : String) (io : WriteOutcome) :
    (osWriteFile loc data io).1 = loc ∨
    (osWriteFile loc data io).1.content = some data ∨
    ∃ n, (osWriteFile loc data io).1.content = some (truncateData data n) := by
  cases loc <;> cases io <;> simp [osWriteFile, Location.withData, Location.content]

/-- A file that can be read is a readable file, and its content is what is read. -/
theorem readable_of_read_ok {loc : Location} {data : String}
    (h : osReadFile loc = .ok data) : loc = Location.readable data := by
  cases loc <;> simp [osReadFile] at h ⊢
  exact h

/-- On a readable file `NewStore` returns what the decoder makes of its content. -/
theorem NewStore_of_readable (unmarshal : String → Except Error (List WaitlistEntry))
    (fs : String → Location) (filename data : String)
    (hfs : fs filename = Location.readable data) :
    NewStore unmarshal fs filename =
      (match unmarshal data with
       | .ok es => .ok { entries := es, file := filename, nextID := findMaxID es 1 }
       | .error err => .error err) := by
  simp only [NewStore, hfs, osStat, osReadFile]
  cases unmarshal data <;> rfl

/-! ## Lemmas on concurrent calls of Add -/

theorem getElem?_set_cases {l : List AddCall} {i j : Nat} {c' d : AddCall}
    (h : (l.set i c')[j]? = some d) : (j = i ∧ d = c') ∨ (j ≠ i ∧ l[j]? = some d) := by
  rw [List.getElem?_set] at h
  split at h
  · rename_i hij
    split at h
    · exact Or.inl ⟨hij.symm, (Option.some.inj h).symm⟩
    · cases h
  · rename_i hij
    exact Or.inr ⟨fun hji => hij hji.symm, h⟩

theorem countP_set_same (p : AddCall → Bool) {l : List AddCall} {i : Nat} {c c' : AddCall}
    (hi : l[i]? = some c) (hp : p c' = p c) : (l.set i c').countP p = l.countP p := by
  obtain ⟨hlt, hc⟩ := List.getElem?_eq_some.mp hi
  rw [List.countP_set p l i c' hlt, hc, hp]
  have := List.boole_getElem_le_countP p l i hlt
  rw [hc] at this
  omega

theorem countP_set_gain (p : AddCall → Bool) {l : List AddCall} {i : Nat} {c c' : AddCall}
    (hi : l[i]? = some c) (hc0 : p c = false) (hc1 : p c' = true) :
    (l.set i c').countP p = l.countP p + 1 := by
  obtain ⟨hlt, hc⟩ := List.getElem?_eq_some.mp hi
  rw [List.countP_set p l i c' hlt, hc, hc0, hc1]
  simp

theorem step_waiting_free {σ : Shared} {i : Nat} {c : AddCall} (hi : σ.calls[i]? = some c)
    (hph : c.phase = AddPhase.waiting) (hw : σ.writer = none) :
    σ.step i = { store := σ.store, writer := some i
                 calls := σ.calls.set i { c with phase := AddPhase.checking } } := by
  simp [Shared.step, hi, hph, hw]

theorem step_waiting_held {σ : Shared} {i k : Nat} {c : AddCall} (hi : σ.calls[i]? = some c)
    (hph : c.phase = AddPhase.waiting) (hw : σ.writer = some k) : σ.step i = σ := by
  simp [Shared.step, hi, hph, hw]

theorem step_checking_dup {σ : Shared} {i : Nat} {c : AddCall} (hi : σ.calls[i]? = some c)
    (hph : c.phase = AddPhase.checking) (hex : emailExists σ.store.entries c.email = true) :
    σ.step i = { store := σ.store, writer := σ.writer
                 calls := σ.calls.set i { c with phase := AddPhase.unlocking none false } } := by
  simp [Shared.step, hi, hph, hex]

theorem step_checking_new {σ : Shared} {i : Nat} {c : AddCall} (hi : σ.calls[i]? = some c)
    (hph : c.phase = AddPhase.checking) (hex : emailExists σ.store.entries c.email = false) :
    σ.step i = { store := σ.store, writer := σ.writer
                 calls := σ.calls.set i { c with phase := AddPhase.checked } } := by
  simp [Shared.step, hi, hph, hex]

theorem step_checked {σ : Shared} {i : Nat} {c : AddCall} (hi : σ.calls[i]? = some c)
    (hph : c.phase = AddPhase.checked) :
    σ.step i =
      { store := { entries := σ.store.entries, file := σ.store.file
                   nextID := wrap64 (σ.store.nextID + 1) }
        writer := σ.writer
        calls := σ.calls.set i
          { c with phase := AddPhase.built ⟨σ.store.nextID, c.email, c.now⟩ } } := by
  simp [Shared.step, hi, hph]

theorem step_built {σ : Shared} {i : Nat} {c : AddCall} {entry : WaitlistEntry}
    (hi : σ.calls[i]? = some c) (hph : c.phase = AddPhase.built entry) :
    σ.step i =
      { store := { entries := σ.store.entries ++ [entry], file := σ.store.file
                   nextID := σ.store.nextID }
        writer := σ.writer
        calls := σ.calls.set i { c with phase := AddPhase.unlocking (some entry) true } } := by
  simp [Shared.step, hi, hph]

theorem step_unlocking {σ : Shared} {i : Nat} {c : AddCall} {entry : Option WaitlistEntry}
    {accepted : Bool} (hi : σ.calls[i]? = some c)
    (hph : c.phase = AddPhase.unlocking entry accepted) :
    σ.step i = { store := σ.store, writer := none
                 calls := σ.calls.set i { c with phase := AddPhase.returned entry accepted } } := by
  simp [Shared.step, hi, hph]

theorem step_returned {σ : Shared} {i : Nat} {c : AddCall} {entry : Option WaitlistEntry}
    {accepted : Bool} (hi : σ.calls[i]? = some c)
    (hph : c.phase = AddPhase.returned entry accepted) : σ.step i = σ := by
  simp [Shared.step, hi, hph]

theorem step_absent {σ : Shared} {i : Nat} (hi : σ.calls[i]? = none) : σ.step i = σ := by
  simp [Shared.step, hi]

theorem holdsLock_of_passed {ph : AddPhase} (h : ph.passed = true) : ph.holdsLock = true := by
  cases ph <;> simp_all [AddPhase.passed, AddPhase.holdsLock]

/-- While goroutine `i` is between `Lock()` and `Unlock()`, no other one is. -/
theorem others_outside {email : String} {σ : Shared} (h : σ.Inv email) {i j : Nat}
    {c d : AddCall} (hi : σ.calls[i]? = some c) (hc : c.phase.holdsLock = true)
    (hne : j ≠ i) (hj : σ.calls[j]? = some d) : d.phase.holdsLock = false := by
  have hw : σ.writer = some i := (h.lock i c hi).mp hc
  cases hd : d.phase.holdsLock with
  | false => rfl
  | true =>
    have hw2 : σ.writer = some j := (h.lock j d hj).mp hd
    rw [hw] at hw2
    exact absurd (Option.some.inj hw2).symm hne

theorem Inv_start (s : Store) (email : String) (times : List Time)
    (hfresh : ∀ e ∈ s.entries, e.Email ≠ email) : (Shared.start s email times).Inv email := by
  have hget : ∀ (j : Nat) (c : AddCall), (Shared.start s email times).calls[j]? = some c →
      c.email = email ∧ c.phase = AddPhase.waiting := by
    intro j c hj
    simp only [Shared.start, List.getElem?_map, Option.map_eq_some'] at hj
    obtain ⟨t, _, rfl⟩ := hj
    exact ⟨rfl, rfl⟩
  have hex : emailExists s.entries email = false :=
    (emailExists_eq_false_iff s.entries email).mpr hfresh
  refine ⟨fun j c hj => (hget j c hj).1, ?_, ?_, ?_, ?_, ?_⟩
  · intro j c hj
    rw [(hget j c hj).2]
    simp [AddPhase.holdsLock, Shared.start]
  · intro j c hj hp
    rw [(hget j c hj).2] at hp
    simp [AddPhase.passed] at hp
  · intro j c entry hj hp
    rw [(hget j c hj).2] at hp
    cases hp
  · intro j c hj hp
    rw [(hget j c hj).2] at hp
    simp [AddPhase.rejects] at hp
  · simp only [Shared.start, hex, Bool.false_eq_true, if_false, List.countP_eq_zero,
      List.mem_map, forall_exists_index, and_imp]
    intro c t _ hc
    subst hc
    simp [AddPhase.accepts]

theorem Inv_step {email : String} {σ : Shared} (h : σ.Inv email) (i : Nat) :
    (σ.step i).Inv email := by
  cases hi : σ.calls[i]? with
  | none => rw [step_absent hi]; exact h
  | some c =>
    have hmail : c.email = email := h.emails i c hi
    cases hph : c.phase with
    | waiting =>
      cases hw : σ.writer with
      | some k => rw [step_waiting_held hi hph hw]; exact h
      | none =>
        rw [step_waiting_free hi hph hw]
        refine ⟨?_, ?_, ?_, ?_, ?_, ?_⟩
        · intro j d hj
          rcases getElem?_set_cases hj with ⟨_, rfl⟩ | ⟨_, hj⟩
          · exact hmail
          · exact h.emails j d hj
        · intro j d hj
          rcases getElem?_set_cases hj with ⟨rfl, rfl⟩ | ⟨hne, hj⟩
          · simp [AddPhase.holdsLock]
          · have hl := h.lock j d hj
            rw [hw] at hl
            constructor
            · intro hd; exact absurd (hl.mp hd) (by simp)
            · intro hij; exact absurd (Option.some.inj hij).symm hne
        · intro j d hj hp
          rcases getElem?_set_cases hj with ⟨_, rfl⟩ | ⟨_, hj⟩
          · simp [AddPhase.passed] at hp
          · exact h.passed j d hj hp
        · intro j d entry hj hp
          rcases getElem?_set_cases hj with ⟨_, rfl⟩ | ⟨_, hj⟩
          · cases hp
          · exact h.built j d entry hj hp
        · intro j d hj hp
          rcases getElem?_set_cases hj with ⟨_, rfl⟩ | ⟨_, hj⟩
          · simp [AddPhase.rejects] at hp
          · exact h.rejected j d hj hp
        · have hc := countP_set_same (fun c => c.phase.accepts) hi
            (show (fun c : AddCall => c.phase.accepts) { c with phase := AddPhase.checking } =
              (fun c : AddCall => c.phase.accepts) c by simp [hph, AddPhase.accepts])
          simp only [hc]
          exact h.count
    | checking =>
      have hwi : σ.writer = some i := (h.lock i c hi).mp (by rw [hph]; rfl)
      cases hex : emailExists σ.store.entries c.email with
      | true =>
        rw [step_checking_dup hi hph hex]
        rw [hmail] at hex
        refine ⟨?_, ?_, ?_, ?_, ?_, ?_⟩
        · intro j d hj
          rcases getElem?_set_cases hj with ⟨_, rfl⟩ | ⟨_, hj⟩
          · exact hmail
          · exact h.emails j d hj
        · intro j d hj
          rcases getElem?_set_cases hj with ⟨rfl, rfl⟩ | ⟨_, hj⟩
          · simp [AddPhase.holdsLock, hwi]
          · exact h.lock j d hj
        · intro j d hj hp
          rcases getElem?_set_cases hj with ⟨_, rfl⟩ | ⟨_, hj⟩
          · simp [AddPhase.passed] at hp
          · exact h.passed j d hj hp
        · intro j d entry hj hp
          rcases getElem?_set_cases hj with ⟨_, rfl⟩ | ⟨_, hj⟩
          · cases hp
          · exact h.built j d entry hj hp
        · intro j d hj hp
          rcases getElem?_set_cases hj with ⟨_, rfl⟩ | ⟨_, hj⟩
          · exact hex
          · exact h.rejected j d hj hp
        · have hc := countP_set_same (fun c => c.phase.accepts) hi
            (show (fun c : AddCall => c.phase.accepts)
                { c with phase := AddPhase.unlocking none false } =
              (fun c : AddCall => c.phase.accepts) c by simp [hph, AddPhase.accepts])
          simp only [hc]
          exact h.count
      | false =>
        rw [step_checking_new hi hph hex]
        rw [hmail] at hex
        refine ⟨?_, ?_, ?_, ?_, ?_, ?_⟩
        · intro j d hj
          rcases getElem?_set_cases hj with ⟨_, rfl⟩ | ⟨_, hj⟩
          · exact hmail
          · exact h.emails j d hj
        · intro j d hj
          rcases getElem?_set_cases hj with ⟨rfl, rfl⟩ | ⟨_, hj⟩
          · simp [AddPhase.holdsLock, hwi]
          · exact h.lock j d hj
        · intro j d hj hp
          rcases getElem?_set_cases hj with ⟨_, rfl⟩ | ⟨_, hj⟩
          · exact hex
          · exact h.passed j d hj hp
        · intro j d entry hj hp
          rcases getElem?_set_cases hj with ⟨_, rfl⟩ | ⟨_, hj⟩
          · cases hp
          · exact h.built j d entry hj hp
        · intro j d hj hp
          rcases getElem?_set_cases hj with ⟨_, rfl⟩ | ⟨_, hj⟩
          · simp [AddPhase.rejects] at hp
          · exact h.rejected j d hj hp
        · have hc := countP_set_same (fun c => c.phase.accepts) hi
            (show (fun c : AddCall => c.phase.accepts) { c with phase := AddPhase.checked } =
              (fun c : AddCall => c.phase.accepts) c by simp [hph, AddPhase.accepts])
          simp only [hc]
          exact h.count
    | checked =>
      have hwi : σ.writer = some i := (h.lock i c hi).mp (by rw [hph]; rfl)
      have hex : emailExists σ.store.entries email = false :=
        h.passed i c hi (by rw [hph]; rfl)
      rw [step_checked hi hph]
      refine ⟨?_, ?_, ?_, ?_, ?_, ?_⟩
      · intro j d hj
        rcases getElem?_set_cases hj with ⟨_, rfl⟩ | ⟨_, hj⟩
        · exact hmail
        · exact h.emails j d hj
      · intro j d hj
        rcases getElem?_set_cases hj with ⟨rfl, rfl⟩ | ⟨_, hj⟩
        · simp [AddPhase.holdsLock, hwi]
        · exact h.lock j d hj
      · intro j d hj hp
        exact hex
      · intro j d entry hj hp
        rcases getElem?_set_cases hj with ⟨_, rfl⟩ | ⟨_, hj⟩
        · simp only [AddPhase.built.injEq] at hp
          rw [← hp]
          exact hmail
        · exact h.built j d entry hj hp
      · intro j d hj hp
        rcases getElem?_set_cases hj with ⟨_, rfl⟩ | ⟨_, hj⟩
        · simp [AddPhase.rejects] at hp
        · exact h.rejected j d hj hp
      · have hc := countP_set_same (fun c => c.phase.accepts) hi
          (show (fun c : AddCall => c.phase.accepts)
              { c with phase := AddPhase.built ⟨σ.store.nextID, c.email, c.now⟩ } =
            (fun c : AddCall => c.phase.accepts) c by simp [hph, AddPhase.accepts])
        simp only [hc]
        exact h.count
    | built entry =>
      have hlk : c.phase.holdsLock = true := by rw [hph]; rfl
      have hwi : σ.writer = some i := (h.lock i c hi).mp hlk
      have hex : emailExists σ.store.entries email = false :=
        h.passed i c hi (by rw [hph]; rfl)
      have hent : entry.Email = email := h.built i c entry hi hph
      have hex' : emailExists (σ.store.entries ++ [entry]) email = true := by
        rw [emailExists_eq_true_iff]
        exact ⟨entry, by simp, hent⟩
      rw [step_built hi hph]
      refine ⟨?_, ?_, ?_, ?_, ?_, ?_⟩
      · intro j d hj
        rcases getElem?_set_cases hj with ⟨_, rfl⟩ | ⟨_, hj⟩
        · exact hmail
        · exact h.emails j d hj
      · intro j d hj
        rcases getElem?_set_cases hj with ⟨rfl, rfl⟩ | ⟨_, hj⟩
        · simp [AddPhase.holdsLock, hwi]
        · exact h.lock j d hj
      · intro j d hj hp
        rcases getElem?_set_cases hj with ⟨_, rfl⟩ | ⟨hne, hj⟩
        · simp [AddPhase.passed] at hp
        · have := others_outside h hi hlk hne hj
          rw [holdsLock_of_passed hp] at this
          cases this
      · intro j d e hj hp
        rcases getElem?_set_cases hj with ⟨_, rfl⟩ | ⟨_, hj⟩
        · cases hp
        · exact h.built j d e hj hp
      · intro j d hj hp
        exact hex'
      · have hc := countP_set_gain (fun c => c.phase.accepts) hi
          (show (fun c : AddCall => c.phase.accepts) c = false by simp [hph, AddPhase.accepts])
          (show (fun c : AddCall => c.phase.accepts)
              { c with phase := AddPhase.unlocking (some entry) true } = true by
            simp [AddPhase.accepts])
        have hcount := h.count
        rw [hex] at hcount
        simp only [hc, hcount, hex', if_true]
        simp
    | unlocking entry accepted =>
      have hlk : c.phase.holdsLock = true := by rw [hph]; rfl
      rw [step_unlocking hi hph]
      refine ⟨?_, ?_, ?_, ?_, ?_, ?_⟩
      · intro j d hj
        rcases getElem?_set_cases hj with ⟨_, rfl⟩ | ⟨_, hj⟩
        · exact hmail
        · exact h.emails j d hj
      · intro j d hj
        rcases getElem?_set_cases hj with ⟨rfl, rfl⟩ | ⟨hne, hj⟩
        · simp [AddPhase.holdsLock]
        · have := others_outside h hi hlk hne hj
          simp [this]
      · intro j d hj hp
        rcases getElem?_set_cases hj with ⟨_, rfl⟩ | ⟨_, hj⟩
        · simp [AddPhase.passed] at hp
        · exact h.passed j d hj hp
      · intro j d e hj hp
        rcases getElem?_set_cases hj with ⟨_, rfl⟩ | ⟨_, hj⟩
        · cases hp
        · exact h.built j d e hj hp
      · intro j d hj hp
        rcases getElem?_set_cases hj with ⟨_, rfl⟩ | ⟨_, hj⟩
        · exact h.rejected i c hi (by rw [hph]; exact hp)
        · exact h.rejected j d hj hp
      · have hc := countP_set_same (fun c => c.phase.accepts) hi
          (show (fun c : AddCall => c.phase.accepts)
              { c with phase := AddPhase.returned entry accepted } =
            (fun c : AddCall => c.phase.accepts) c by simp [hph, AddPhase.accepts])
        simp only [hc]
        exact h.count
    | returned entry accepted => rw [step_returned hi hph]; exact h

theorem Inv_run {email : String} (schedule : List Nat) :
    ∀ σ : Shared, σ.Inv email → (σ.run schedule).Inv email := by
  induction schedule with
  | nil => intro σ h; exact h
  | cons i rest ih =>
    intro σ h
    exact ih (σ.step i) (Inv_step h i)

theorem step_calls_length (σ : Shared) (i : Nat) : (σ.step i).calls.length = σ.calls.length := by
  cases hi : σ.calls[i]? with
  | none => rw [step_absent hi]
  | some c =>
    cases hph : c.phase with
    | waiting =>
      cases hw : σ.writer with
      | some k => rw [step_waiting_held hi hph hw]
      | none => rw [step_waiting_free hi hph hw]; simp
    | checking =>
      cases hex : emailExists σ.store.entries c.email with
      | true => rw [step_checking_dup hi hph hex]; simp
      | false => rw [step_checking_new hi hph hex]; simp
    | checked => rw [step_checked hi hph]; simp
    | built entry => rw [step_built hi hph]; simp
    | unlocking entry accepted => rw [step_unlocking hi hph]; simp
    | returned entry accepted => rw [step_returned hi hph]

theorem run_calls_length (schedule : List Nat) :
    ∀ σ : Shared, (σ.run schedule).calls.length = σ.calls.length := by
  induction schedule with
  | nil => intro σ; rfl
  | cons i rest ih =>
    intro σ
    exact (ih (σ.step i)).trans (step_calls_length σ i)

/-- A goroutine that runs alone does in five steps what `Store.Add` does in one. -/
theorem run_alone_eq_Add (s : Store) (email : String) (now : Time) :
    Shared.run ⟨s, none, [⟨email, now, AddPhase.waiting⟩]⟩ [0, 0, 0, 0, 0] =
      ⟨(s.Add email now).store, none,
        [⟨email, now, AddPhase.returned (s.Add email now).entry (s.Add email now).accepted⟩]⟩ := by
  cases hex : emailExists s.entries email with
  | true => simp [Shared.run, Shared.step, Store.Add, hex]
  | false => simp [Shared.run, Shared.step, Store.Add, hex]

/-- When all calls have returned under the invariant, one was accepted. -/
theorem accepted_count_of_all_returned {email : String} {σ : Shared} (h : σ.Inv email)
    (hpos : 0 < σ.calls.length) (hdone : ∀ c ∈ σ.calls, c.phase.isReturned = true) :
    σ.calls.countP (fun c => c.phase.returnedWith true) = 1 ∧
    σ.calls.countP (fun c => c.phase.returnedWith false) = σ.calls.length - 1 := by
  have hacc : σ.calls.countP (fun c => c.phase.returnedWith true) =
      σ.calls.countP (fun c => c.phase.accepts) := by
    apply List.countP_congr
    intro c hc
    have := hdone c hc
    cases hph : c.phase <;> simp_all [AddPhase.isReturned, AddPhase.returnedWith, AddPhase.accepts]
  have hrej : σ.calls.countP (fun c => c.phase.returnedWith false) =
      σ.calls.countP (fun c => ¬ (c.phase.accepts = true)) := by
    apply List.countP_congr
    intro c hc
    have := hdone c hc
    cases hph : c.phase <;> simp_all [AddPhase.isReturned, AddPhase.returnedWith, AddPhase.accepts]
  have hsum := List.length_eq_countP_add_countP (fun c : AddCall => c.phase.accepts) σ.calls
  have hex : emailExists σ.store.entries email = true := by
    have h0 : σ.calls[0]? = some σ.calls[0] := List.getElem?_eq_getElem hpos
    have hd := hdone σ.calls[0] (List.getElem_mem hpos)
    cases hr : σ.calls[0].phase.rejects with
    | true => exact h.rejected 0 _ h0 hr
    | false =>
      have ha : σ.calls[0].phase.accepts = true := by
        cases hph : σ.calls[0].phase <;>
          simp_all [AddPhase.isReturned, AddPhase.rejects, AddPhase.accepts]
      have hge : 0 < σ.calls.countP (fun c => c.phase.accepts) :=
        List.countP_pos_iff.mpr ⟨σ.calls[0], List.getElem_mem hpos, ha⟩
      have hcount := h.count
      cases hx : emailExists σ.store.entries email with
      | true => rfl
      | false =>
        rw [hx] at hcount
        simp only [Bool.false_eq_true, if_false] at hcount
        omega
  have hone : σ.calls.countP (fun c => c.phase.accepts) = 1 := by
    rw [h.count, hex]; rfl
  rw [hacc, hrej, hone]
  refine ⟨rfl, ?_⟩
  rw [hone] at hsum
  omega

/-! ## Lemmas on regular expressions -/

theorem Matches_nil_of_nullable (r : Regex) (h : r.nullable = true) : r.Matches [] := by
  induction r with
  | never => simp [Regex.nullable] at h
  | eps => exact Regex.Matches.eps
  | chr c => simp [Regex.nullable] at h
  | cls ranges => simp [Regex.nullable] at h
  | seq r s ihr ihs =>
    simp only [Regex.nullable, Bool.and_eq_true] at h
    exact Regex.Matches.seq (ihr h.1) (ihs h.2)
  | alt r s ihr ihs =>
    simp only [Regex.nullable, Bool.or_eq_true] at h
    rcases h with h | h
    · exact Regex.Matches.altL (ihr h)
    · exact Regex.Matches.altR (ihs h)
  | star r _ => exact Regex.Matches.starNil

theorem nullable_of_Matches {r : Regex} {x : List Char} (h : r.Matches x) :
    x = [] → r.nullable = true := by
  induction h with
  | eps => intro _; rfl
  | chr c => intro hx; cases hx
  | cls _ => intro hx; cases hx
  | seq _ _ ih1 ih2 =>
    intro hx
    rw [List.append_eq_nil] at hx
    simp [Regex.nullable, ih1 hx.1, ih2 hx.2]
  | altL _ ih => intro hx; simp [Regex.nullable, ih hx]
  | altR _ ih => intro hx; simp [Regex.nullable, ih hx]
  | starNil => intro _; rfl
  | starCons _ _ _ _ => intro _; rfl

theorem nullable_iff (r : Regex) : r.nullable = true ↔ r.Matches [] :=
  ⟨Matches_nil_of_nullable r, fun h => nullable_of_Matches h rfl⟩

theorem Matches_of_deriv (r : Regex) (c : Char) :
    ∀ x : List Char, (r.deriv c).Matches x → r.Matches (c :: x) := by
  induction r with
  | never => intro x h; cases h
  | eps => intro x h; cases h
  | chr a =>
    intro x h
    simp only [Regex.deriv] at h
    split at h
    · rename_i hac
      subst hac
      cases h
      exact Regex.Matches.chr a
    · cases h
  | cls ranges =>
    intro x h
    simp only [Regex.deriv] at h
    split at h
    · rename_i hin
      cases h
      exact Regex.Matches.cls hin
    · cases h
  | seq r s ihr ihs =>
    intro x h
    simp only [Regex.deriv] at h
    split at h
    · rename_i hnull
      cases h with
      | altL h =>
        cases h with
        | seq h1 h2 => exact Regex.Matches.seq (ihr _ h1) h2
      | altR h =>
        exact Regex.Matches.seq (Matches_nil_of_nullable r hnull) (ihs _ h)
    · cases h with
      | seq h1 h2 => exact Regex.Matches.seq (ihr _ h1) h2
  | alt r s ihr ihs =>
    intro x h
    simp only [Regex.deriv] at h
    cases h with
    | altL h => exact Regex.Matches.altL (ihr _ h)
    | altR h => exact Regex.Matches.altR (ihs _ h)
  | star r ihr =>
    intro x h
    simp only [Regex.deriv] at h
    cases h with
    | seq h1 h2 => exact Regex.Matches.starCons (ihr _ h1) h2

theorem deriv_of_Matches {r : Regex} {w : List Char} (h : r.Matches w) :
    ∀ (c : Char) (x : List Char), w = c :: x → (r.deriv c).Matches x := by
  induction h with
  | eps => intro c x hw; cases hw
  | chr a =>
    intro c x hw
    cases hw
    simp only [Regex.deriv, if_true]
    exact Regex.Matches.eps
  | @cls ranges a hin =>
    intro c x hw
    cases hw
    simp only [Regex.deriv, hin, if_true]
    exact Regex.Matches.eps
  | @seq r s x1 y h1 h2 ih1 ih2 =>
    intro c x hw
    cases x1 with
    | nil =>
      simp only [List.nil_append] at hw
      have hnull := nullable_of_Matches h1 rfl
      simp only [Regex.deriv, hnull, if_true]
      exact Regex.Matches.altR (ih2 c x hw)
    | cons a x1 =>
      simp only [List.cons_append, List.cons.injEq] at hw
      obtain ⟨rfl, rfl⟩ := hw
      have hd := Regex.Matches.seq (ih1 a x1 rfl) h2
      simp only [Regex.deriv]
      split
      · exact Regex.Matches.altL hd
      · exact hd
  | altL _ ih =>
    intro c x hw
    exact Regex.Matches.altL (ih c x hw)
  | altR _ ih =>
    intro c x hw
    exact Regex.Matches.altR (ih c x hw)
  | starNil => intro c x hw; cases hw
  | @starCons r x1 y h1 h2 ih1 ih2 =>
    intro c x hw
    cases x1 with
    | nil =>
      simp only [List.nil_append] at hw
      exact ih2 c x hw
    | cons a x1 =>
      simp only [List.cons_append, List.cons.injEq] at hw
      obtain ⟨rfl, rfl⟩ := hw
      exact Regex.Matches.seq (ih1 a x1 rfl) h2

/-- Matching by derivatives decides the language. -/
theorem fullMatch_iff (text : List Char) :
    ∀ r : Regex, r.fullMatch text = true ↔ r.Matches text := by
  induction text with
  | nil => intro r; exact nullable_iff r
  | cons c rest ih =>
    intro r
    have h := ih (r.deriv c)
    simp only [Regex.fullMatch, List.foldl_cons] at h ⊢
    rw [h]
    exact ⟨Matches_of_deriv r c rest, fun hm => deriv_of_Matches hm c rest rfl⟩

theorem Matches_chr_iff (c : Char) (w : List Char) : (Regex.chr c).Matches w ↔ w = [c] := by
  constructor
  · intro h; cases h; rfl
  · intro h; subst h; exact Regex.Matches.chr c

theorem Matches_cls_iff (ranges : List (Char × Char)) (w : List Char) :
    (Regex.cls ranges).Matches w ↔ ∃ c, w = [c] ∧ inClass ranges c = true := by
  constructor
  · intro h
    cases h with
    | cls hin => exact ⟨_, rfl, hin⟩
  · rintro ⟨c, rfl, hin⟩
    exact Regex.Matches.cls hin

theorem Matches_seq_iff (r s : Regex) (w : List Char) :
    (Regex.seq r s).Matches w ↔ ∃ x y, w = x ++ y ∧ r.Matches x ∧ s.Matches y := by
  constructor
  · intro h
    cases h with
    | seq h1 h2 => exact ⟨_, _, rfl, h1, h2⟩
  · rintro ⟨x, y, rfl, h1, h2⟩
    exact Regex.Matches.seq h1 h2

theorem all_inClass_of_Matches_star {ranges : List (Char × Char)} {r : Regex} {w : List Char}
    (h : r.Matches w) : r = Regex.star (Regex.cls ranges) →
      ∀ c ∈ w, inClass ranges c = true := by
  induction h with
  | eps => intro hr; cases hr
  | chr _ => intro hr; cases hr
  | cls _ => intro hr; cases hr
  | seq _ _ _ _ => intro hr; cases hr
  | altL _ _ => intro hr; cases hr
  | altR _ _ => intro hr; cases hr
  | starNil => intro _ c hc; cases hc
  | starCons h1 _ _ ih2 =>
    intro hr c hc
    cases hr
    rcases List.mem_append.mp hc with hc | hc
    · obtain ⟨a, rfl, hin⟩ := (Matches_cls_iff ranges _).mp h1
      rw [List.mem_singleton] at hc
      subst hc
      exact hin
    · exact ih2 rfl c hc

theorem Matches_star_cls_iff (ranges : List (Char × Char)) (w : List Char) :
    (Regex.star (Regex.cls ranges)).Matches w ↔ ∀ c ∈ w, inClass ranges c = true := by
  constructor
  · intro h
    exact all_inClass_of_Matches_star h rfl
  · intro h
    induction w with
    | nil => exact Regex.Matches.starNil
    | cons a rest ih =>
      have h1 : (Regex.cls ranges).Matches [a] :=
        Regex.Matches.cls (h a (List.mem_cons_self _ _))
      exact Regex.Matches.starCons h1 (ih (fun c hc => h c (List.mem_cons_of_mem _ hc)))

theorem Matches_plus_cls_iff (ranges : List (Char × Char)) (w : List Char) :
    (Regex.plus (Regex.cls ranges)).Matches w ↔ w ≠ [] ∧ ∀ c ∈ w, inClass ranges c = true := by
  unfold Regex.plus
  rw [Matches_seq_iff]
  constructor
  · rintro ⟨x, y, rfl, h1, h2⟩
    obtain ⟨a, rfl, hin⟩ := (Matches_cls_iff ranges _).mp h1
    refine ⟨by simp, ?_⟩
    intro c hc
    rcases List.mem_append.mp hc with hc | hc
    · rw [List.mem_singleton] at hc
      subst hc
      exact hin
    · exact (Matches_star_cls_iff ranges y).mp h2 c hc
  · rintro ⟨hne, hall⟩
    cases w with
    | nil => exact absurd rfl hne
    | cons a rest =>
      refine ⟨[a], rest, rfl, Regex.Matches.cls (hall a (List.mem_cons_self _ _)), ?_⟩
      exact (Matches_star_cls_iff ranges rest).mpr
        (fun c hc => hall c (List.mem_cons_of_mem _ hc))

theorem Matches_atLeastTwo_cls_iff (ranges : List (Char × Char)) (w : List Char) :
    (Regex.atLeastTwo (Regex.cls ranges)).Matches w ↔
      2 ≤ w.length ∧ ∀ c ∈ w, inClass ranges c = true := by
  unfold Regex.atLeastTwo
  rw [Matches_seq_iff]
  constructor
  · rintro ⟨x, y, rfl, h1, h2⟩
    obtain ⟨a, rfl, hin⟩ := (Matches_cls_iff ranges _).mp h1
    have h3 := (Matches_plus_cls_iff ranges y).mp h2
    refine ⟨?_, ?_⟩
    · have : 0 < y.length := List.length_pos.mpr h3.1
      simp only [List.length_append, List.length_singleton]
      omega
    · intro c hc
      rcases List.mem_append.mp hc with hc | hc
      · rw [List.mem_singleton] at hc
        subst hc
        exact hin
      · exact h3.2 c hc
  · rintro ⟨hlen, hall⟩
    cases w with
    | nil => simp at hlen
    | cons a rest =>
      refine ⟨[a], rest, rfl, Regex.Matches.cls (hall a (List.mem_cons_self _ _)), ?_⟩
      apply (Matches_plus_cls_iff ranges rest).mpr
      refine ⟨?_, fun c hc => hall c (List.mem_cons_of_mem _ hc)⟩
      intro hnil
      subst hnil
      simp at hlen

/-- The texts of the pattern of `isValidEmail`. -/
theorem Matches_emailRegex_iff (w : List Char) :
    emailRegex.Matches w ↔
      ∃ loc dom tld : List Char, w = loc ++ ['@'] ++ dom ++ ['.'] ++ tld ∧
        loc ≠ [] ∧ (∀ c ∈ loc, inClass localClass c = true) ∧
        dom ≠ [] ∧ (∀ c ∈ dom, inClass domainClass c = true) ∧
        2 ≤ tld.length ∧ (∀ c ∈ tld, inClass letterClass c = true) := by
  unfold emailRegex
  constructor
  · intro h
    obtain ⟨loc, r1, rfl, hloc, h⟩ := (Matches_seq_iff _ _ _).mp h
    obtain ⟨at1, r2, rfl, hat, h⟩ := (Matches_seq_iff _ _ _).mp h
    obtain ⟨dom, r3, rfl, hdom, h⟩ := (Matches_seq_iff _ _ _).mp h
    obtain ⟨dot, tld, rfl, hdot, htld⟩ := (Matches_seq_iff _ _ _).mp h
    rw [Matches_chr_iff] at hat hdot
    subst hat
    subst hdot
    rw [Matches_plus_cls_iff] at hloc hdom
    rw [Matches_atLeastTwo_cls_iff] at htld
    exact ⟨loc, dom, tld, by simp, hloc.1, hloc.2, hdom.1, hdom.2, htld.1, htld.2⟩
  · rintro ⟨loc, dom, tld, rfl, hloc1, hloc2, hdom1, hdom2, htld1, htld2⟩
    have e : loc ++ ['@'] ++ dom ++ ['.'] ++ tld = loc ++ (['@'] ++ (dom ++ (['.'] ++ tld))) := by
      simp
    rw [e]
    refine Regex.Matches.seq ((Matches_plus_cls_iff _ _).mpr ⟨hloc1, hloc2⟩) ?_
    refine Regex.Matches.seq (Regex.Matches.chr '@') ?_
    refine Regex.Matches.seq ((Matches_plus_cls_iff _ _).mpr ⟨hdom1, hdom2⟩) ?_
    exact Regex.Matches.seq (Regex.Matches.chr '.')
      ((Matches_atLeastTwo_cls_iff _ _).mpr ⟨htld1, htld2⟩)

theorem isValidEmail_iff (email : String) :
    isValidEmail email = true ↔
      ∃ loc dom tld : List Char, email.data = loc ++ ['@'] ++ dom ++ ['.'] ++ tld ∧
        loc ≠ [] ∧ (∀ c ∈ loc, inClass localClass c = true) ∧
        dom ≠ [] ∧ (∀ c ∈ dom, inClass domainClass c = true) ∧
        2 ≤ tld.length ∧ (∀ c ∈ tld, inClass letterClass c = true) := by
  unfold isValidEmail
  rw [fullMatch_iff, Matches_emailRegex_iff]

/-! ## Lemmas on the classes of the email pattern -/

theorem localClass_ascii {c : Char} (h : inClass localClass c = true) : c.toNat < 128 := by
  simp [inClass, localClass] at h
  omega

theorem localClass_of_domainClass {c : Char} (h : inClass domainClass c = true) :
    inClass localClass c = true := by
  simp [inClass, localClass, domainClass] at h ⊢
  omega

theorem domainClass_of_letterClass {c : Char} (h : inClass letterClass c = true) :
    inClass domainClass c = true := by
  simp [inClass, letterClass, domainClass] at h ⊢
  omega

theorem localClass_ne_at {c : Char} (h : inClass localClass c = true) : c ≠ '@' := by
  intro hc
  rw [hc] at h
  exact absurd h (by decide)

theorem localClass_ne_newline {c : Char} (h : inClass localClass c = true) : c ≠ '\n' := by
  intro hc
  rw [hc] at h
  exact absurd h (by decide)

theorem count_at_eq_zero {w : List Char} (h : ∀ c ∈ w, inClass localClass c = true) :
    w.count '@' = 0 := by
  rw [List.count_eq_zero]
  intro hmem
  exact localClass_ne_at (h _ hmem) rfl

/-- What `joinWaitlist` passes to `store.Add` has passed `isValidEmail`. -/
theorem joinWaitlist_addCalled (decode : String → Except Error String) (s : Store)
    (method body : String) (now : Time) (e : String)
    (h : (joinWaitlist decode s method body now).addCalled = some e) :
    isValidEmail e = true := by
  unfold joinWaitlist at h
  split at h
  · cases h
  · split at h
    · cases h
    · split at h
      · cases h
      · split at h
        · cases h
        · rename_i hvalid
          split at h
          · cases h
            simpa using hvalid
          · cases h
            simpa using hvalid

theorem run_append (σ : Shared) (a b : List Nat) : σ.run (a ++ b) = (σ.run a).run b := by
  simp [Shared.run, List.foldl_append]

/-- A waiting goroutine that takes five steps while the lock is free returns, and
leaves the lock free and the other goroutines as they were. -/
theorem five_steps {σ : Shared} {k : Nat} {c : AddCall} (hw : σ.writer = none)
    (hi : σ.calls[k]? = some c) (hph : c.phase = AddPhase.waiting) :
    (σ.run [k, k, k, k, k]).writer = none ∧
    ∃ entry accepted, (σ.run [k, k, k, k, k]).calls =
      σ.calls.set k { c with phase := AddPhase.returned entry accepted } := by
  have hlt : k < σ.calls.length := (List.getElem?_eq_some.mp hi).1
  cases hex : emailExists σ.store.entries c.email with
  | true =>
    refine ⟨?_, none, false, ?_⟩ <;>
      simp [Shared.run, Shared.step, hi, hph, hw, hex, hlt, List.getElem?_set_self]
  | false =>
    refine ⟨?_, some ⟨σ.store.nextID, c.email, c.now⟩, true, ?_⟩ <;>
      simp [Shared.run, Shared.step, hi, hph, hw, hex, hlt, List.getElem?_set_self]

theorem serialSchedule_invariant (s : Store) (email : String) (times : List Time) :
    ∀ k : Nat, k ≤ times.length →
      ((Shared.start s email times).run (serialSchedule k)).writer = none ∧
      ∀ (j : Nat) (c : AddCall),
        ((Shared.start s email times).run (serialSchedule k)).calls[j]? = some c →
          (j < k → c.phase.isReturned = true) ∧ (k ≤ j → c.phase = AddPhase.waiting) := by
  intro k
  induction k with
  | zero =>
    intro _
    refine ⟨rfl, ?_⟩
    intro j c hj
    simp only [serialSchedule, Shared.run, List.foldl_nil, Shared.start, List.getElem?_map,
      Option.map_eq_some'] at hj
    obtain ⟨t, _, rfl⟩ := hj
    exact ⟨fun h => absurd h (Nat.not_lt_zero j), fun _ => rfl⟩
  | succ k ih =>
    intro hk
    obtain ⟨hw, hcalls⟩ := ih (by omega)
    have hlen : ((Shared.start s email times).run (serialSchedule k)).calls.length =
        times.length := by
      rw [run_calls_length]
      simp [Shared.start]
    have hkk : k < ((Shared.start s email times).run (serialSchedule k)).calls.length := by
      omega
    have hi := List.getElem?_eq_getElem hkk
    have hph := (hcalls k _ hi).2 (le_refl k)
    obtain ⟨hw', entry, accepted, hc'⟩ := five_steps hw hi hph
    simp only [serialSchedule, run_append]
    refine ⟨hw', ?_⟩
    intro j c hj
    rw [hc'] at hj
    rcases getElem?_set_cases hj with ⟨rfl, rfl⟩ | ⟨hne, hj⟩
    · exact ⟨fun _ => rfl, fun h => absurd h (by omega)⟩
    · have hold := hcalls j c hj
      exact ⟨fun h => hold.1 (by omega), fun h => hold.2 (by omega)⟩

/-- Some schedule lets all the calls return: the one that runs them one after the
other. -/
theorem serialSchedule_completes (s : Store) (email : String) (times : List Time) :
    ∀ c ∈ ((Shared.start s email times).run (serialSchedule times.length)).calls,
      c.phase.isReturned = true := by
  intro c hc
  obtain ⟨j, hj⟩ := List.getElem?_of_mem hc
  have hlt : j < times.length := by
    have := (List.getElem?_eq_some.mp hj).1
    rw [run_calls_length] at this
    simpa [Shared.start] using this
  exact ((serialSchedule_invariant s email times times.length (le_refl _)).2 j c hj).1 hlt

/-! ## Main theorems -/

/-- C1 (uniqueness). Every finite sequence of `Add` calls, duplicates allowed,
applied to the store `NewStore` returns when no snapshot file exists, leaves a
collection in which no two entries share an email and no two share an id. The
collection is a Go slice, whose length is an `int` and so below `2 ^ 63`; the
bound `2 ^ 64` on its length holds of every collection the program can hold. -/
theorem C1_uniqueness (unmarshal : String → Except Error (List WaitlistEntry))
    (fs : String → Location) (filename : String) (s : Store)
    (calls : List (String × Time))
    (habsent : fs filename = Location.absent)
    (hnew : NewStore unmarshal fs filename = .ok s)
    (hlen : (s.addAll calls).entries.length ≤ 2 ^ 64) :
    ((s.addAll calls).entries.map WaitlistEntry.Email).Nodup ∧
    ((s.addAll calls).entries.map WaitlistEntry.ID).Nodup := by
  have hs : s = emptyStore filename := by
    have h := NewStore_of_stat_error unmarshal fs filename Error.notExist (by rw [habsent]; rfl)
    rw [h] at hnew
    exact (Except.ok.inj hnew).symm
  subst hs
  refine ⟨emailsDistinct_addAll calls _ ?_, ?_⟩
  · simp [Store.emailsDistinct, emptyStore]
  · refine ids_nodup_of_countsFromOne (countsFromOne_addAll calls _ ?_) hlen
    simp [Store.countsFromOne, emptyStore, wrap64]

/-- Witness of C1: three calls, one of them a duplicate, on a store started
without a snapshot file. -/
theorem C1_uniqueness_witness :
    (((emptyStore "waitlist.json").addAll
        [("a@x.io", 1), ("b@x.io", 2), ("a@x.io", 3)]).entries.map WaitlistEntry.Email).Nodup ∧
    (((emptyStore "waitlist.json").addAll
        [("a@x.io", 1), ("b@x.io", 2), ("a@x.io", 3)]).entries.map WaitlistEntry.ID).Nodup :=
  C1_uniqueness (unmarshalTable []) (fun _ => Location.absent) "waitlist.json"
    (emptyStore "waitlist.json") [("a@x.io", 1), ("b@x.io", 2), ("a@x.io", 3)]
    rfl rfl (by decide)

/-- C2 (monotonicity), as the claim states it, fails: loaded from a snapshot whose
largest id is `maxInt64 - 1`, the store accepts two new emails with the ids
`maxInt64` and then `minInt64`. -/
theorem C2_counterexample :
    NewStore unmarshalDocs (fun _ => Location.readable docNearMaxID) "waitlist.json" =
      .ok storeNearMaxID ∧
    (storeNearMaxID.acceptedEntries [("a@x.io", 1), ("b@x.io", 2)]).map WaitlistEntry.ID =
      [9223372036854775807, -9223372036854775808] ∧
    ¬ ((storeNearMaxID.acceptedEntries [("a@x.io", 1), ("b@x.io", 2)]).map
        WaitlistEntry.ID).Pairwise (· < ·) := by
  refine ⟨rfl, by decide, by decide⟩

/-- C2 (monotonicity, amended). For every store `NewStore` returns, from no
snapshot or from any decodable one, and every sequence of `Add` calls on it in
which the counter does not pass the largest `int64` (counter plus number of
accepted entries at most `2 ^ 63`), the ids of the accepted entries are strictly
increasing in call order. -/
theorem C2_ids_increase_below_maxInt64
    (unmarshal : String → Except Error (List WaitlistEntry)) (fs : String → Location)
    (filename : String) (s : Store) (calls : List (String × Time))
    (hnew : NewStore unmarshal fs filename = .ok s)
    (hwrap : s.nextID + ((s.acceptedEntries calls).length : Int) ≤ 2 ^ 63) :
    ((s.acceptedEntries calls).map WaitlistEntry.ID).Pairwise (· < ·) := by
  have hmin : minInt64 ≤ s.nextID := (NewStore_nextID_isInt64 hnew).1
  exact (acceptedEntries_no_wrap calls s hmin hwrap).2

/-- Witness of C2: a store loaded from a snapshot, then three calls, one a duplicate. -/
theorem C2_ids_increase_below_maxInt64_witness :
    ((storeNegativeID.acceptedEntries
        [("a@x.io", 1), ("x@x.io", 2), ("b@x.io", 3)]).map WaitlistEntry.ID).Pairwise (· < ·) :=
  C2_ids_increase_below_maxInt64 unmarshalDocs (fun _ => Location.readable docNegativeID)
    "waitlist.json" storeNegativeID [("a@x.io", 1), ("x@x.io", 2), ("b@x.io", 3)]
    rfl (by decide)

/-- C3 (restart consistency of the counter), as the claim states it, fails on two
decodable snapshots: with the single id `-5` the counter is `1`, not
`max(id) + 1 = -4`; with the single id `maxInt64` the counter is `minInt64`, not
`max(id) + 1 = 2 ^ 63`. -/
theorem C3_counterexample :
    (NewStore unmarshalDocs (fun _ => Location.readable docNegativeID) "waitlist.json" =
        .ok storeNegativeID ∧
      storeNegativeID.nextID = 1 ∧ specNextID storeNegativeID.entries = -4 ∧
      storeNegativeID.nextID ≠ specNextID storeNegativeID.entries) ∧
    (NewStore unmarshalDocs (fun _ => Location.readable docMaxID) "waitlist.json" =
        .ok storeMaxID ∧
      storeMaxID.nextID = -9223372036854775808 ∧
      specNextID storeMaxID.entries = 9223372036854775808 ∧
      storeMaxID.nextID ≠ specNextID storeMaxID.entries) := by
  refine ⟨⟨rfl, by decide, by decide, by decide⟩, ⟨rfl, by decide, by decide, by decide⟩⟩

/-- C3 (restart consistency of the counter, amended). For every decodable snapshot
whose ids are all below the largest `int64`, `NewStore` succeeds, keeps the
decoded entries, and sets the counter to the larger of `1` and `max(id) + 1` (`1`
if the loaded set is empty); the first subsequent `Add` of an email not in the
snapshot is accepted and returns an entry whose id is exactly that value. -/
theorem C3_counter_after_load
    (unmarshal : String → Except Error (List WaitlistEntry)) (fs : String → Location)
    (filename data : String) (es : List WaitlistEntry) (email : String) (now : Time)
    (hfs : fs filename = Location.readable data) (hdec : unmarshal data = .ok es)
    (hids : ∀ e ∈ es, e.ID < maxInt64) (hfresh : ∀ e ∈ es, e.Email ≠ email) :
    ∃ s : Store, NewStore unmarshal fs filename = .ok s ∧ s.entries = es ∧
      s.nextID = max 1 (specNextID es) ∧
      (es = [] → s.nextID = 1) ∧
      (s.Add email now).accepted = true ∧
      (s.Add email now).entry = some ⟨max 1 (specNextID es), email, now⟩ := by
  refine ⟨⟨es, filename, findMaxID es 1⟩, NewStore_of_decoded hfs hdec, rfl,
    findMaxID_eq_spec es hids, ?_, ?_, ?_⟩
  · intro h; subst h; rfl
  · rw [Add_of_not_exists now ((emailExists_eq_false_iff es email).mpr hfresh)]
  · rw [Add_of_not_exists now ((emailExists_eq_false_iff es email).mpr hfresh)]
    exact congrArg (fun n => some (WaitlistEntry.mk n email now)) (findMaxID_eq_spec es hids)

/-- Witness of C3: the snapshot with the single id `maxInt64 - 1`. -/
theorem C3_counter_after_load_witness :
    ∃ s : Store,
      NewStore unmarshalDocs (fun _ => Location.readable docNearMaxID) "waitlist.json" = .ok s ∧
      s.entries = storeNearMaxID.entries ∧
      s.nextID = max 1 (specNextID storeNearMaxID.entries) ∧
      (storeNearMaxID.entries = [] → s.nextID = 1) ∧
      (s.Add "a@x.io" 7).accepted = true ∧
      (s.Add "a@x.io" 7).entry =
        some ⟨max 1 (specNextID storeNearMaxID.entries), "a@x.io", 7⟩ :=
  C3_counter_after_load unmarshalDocs (fun _ => Location.readable docNearMaxID)
    "waitlist.json" docNearMaxID storeNearMaxID.entries "a@x.io" 7 rfl rfl
    (by decide) (by decide)

/-- C4 (monotonic ids across restart), as the claim states it, fails on two
decodable snapshots: after loading the single id `maxInt64` the first accepted
entry gets the id `minInt64`; after loading the single id `maxInt64 - 1` the
second accepted entry gets the id `minInt64`. -/
theorem C4_counterexample :
    (NewStore unmarshalDocs (fun _ => Location.readable docMaxID) "waitlist.json" =
        .ok storeMaxID ∧
      storeMaxID.acceptedEntries [("a@x.io", 1)] = [⟨-9223372036854775808, "a@x.io", 1⟩] ∧
      ¬ ∀ a ∈ storeMaxID.acceptedEntries [("a@x.io", 1)],
          ∀ e ∈ storeMaxID.entries, e.ID < a.ID) ∧
    (NewStore unmarshalDocs (fun _ => Location.readable docNearMaxID) "waitlist.json" =
        .ok storeNearMaxID ∧
      storeNearMaxID.acceptedEntries [("a@x.io", 1), ("b@x.io", 2)] =
        [⟨9223372036854775807, "a@x.io", 1⟩, ⟨-9223372036854775808, "b@x.io", 2⟩] ∧
      ¬ ∀ a ∈ storeNearMaxID.acceptedEntries [("a@x.io", 1), ("b@x.io", 2)],
          ∀ e ∈ storeNearMaxID.entries, e.ID < a.ID) := by
  refine ⟨⟨rfl, by decide, by decide⟩, ⟨rfl, by decide, by decide⟩⟩

/-- C4 (monotonic ids across restart, amended). For every decodable snapshot whose
ids are all below the largest `int64`, and every sequence of `Add` calls on the
store `NewStore` builds from it in which the counter does not pass the largest
`int64` (counter plus number of accepted entries at most `2 ^ 63`), every accepted
entry has an id strictly greater than every id of the loaded snapshot. -/
theorem C4_new_ids_above_loaded
    (unmarshal : String → Except Error (List WaitlistEntry)) (fs : String → Location)
    (filename : String) (s : Store) (calls : List (String × Time))
    (hnew : NewStore unmarshal fs filename = .ok s)
    (hids : ∀ e ∈ s.entries, e.ID < maxInt64)
    (hwrap : s.nextID + ((s.acceptedEntries calls).length : Int) ≤ 2 ^ 63) :
    ∀ a ∈ s.acceptedEntries calls, ∀ e ∈ s.entries, e.ID < a.ID := by
  intro a ha e he
  have hmin : minInt64 ≤ s.nextID := (NewStore_nextID_isInt64 hnew).1
  have h1 := (acceptedEntries_no_wrap calls s hmin hwrap).1 a ha
  have h2 := (findMaxID_bounds s.entries 1 (le_refl _) hids).2 e he
  rw [← NewStore_nextID_eq hnew] at h2
  omega

/-- Witness of C4: the snapshot with the single id `maxInt64 - 1` and one accepted call. -/
theorem C4_new_ids_above_loaded_witness :
    storeNearMaxID.acceptedEntries [("a@x.io", 1), ("x@x.io", 2)] =
      [⟨9223372036854775807, "a@x.io", 1⟩] ∧
    (∀ a ∈ storeNearMaxID.acceptedEntries [("a@x.io", 1), ("x@x.io", 2)],
      ∀ e ∈ storeNearMaxID.entries, e.ID < a.ID) :=
  ⟨by decide,
    C4_new_ids_above_loaded unmarshalDocs (fun _ => Location.readable docNearMaxID)
      "waitlist.json" storeNearMaxID [("a@x.io", 1), ("x@x.io", 2)] rfl
      (by decide) (by decide)⟩

/-- C5 (idempotent rejection). For every store state and every email not in the
collection, `Add` called twice in succession with that email is accepted the
first time and rejected the second, and the collection then holds exactly one
entry with that email. -/
theorem C5_idempotent_rejection (s : Store) (email : String) (t1 t2 : Time)
    (hfresh : ∀ e ∈ s.entries, e.Email ≠ email) :
    (s.Add email t1).accepted = true ∧
    ((s.Add email t1).store.Add email t2).accepted = false ∧
    ((s.Add email t1).store.Add email t2).store.entries.countP (fun e => e.Email = email) = 1 := by
  have h1 := Add_of_not_exists t1 ((emailExists_eq_false_iff s.entries email).mpr hfresh)
  have hex : emailExists (s.Add email t1).store.entries email = true := by
    rw [h1, emailExists_eq_true_iff]
    exact ⟨⟨s.nextID, email, t1⟩, by simp, rfl⟩
  have h2 := Add_of_exists t2 hex
  refine ⟨by rw [h1], by rw [h2], ?_⟩
  rw [h2]
  simp only
  rw [h1]
  simp only [List.countP_append, List.countP_cons, List.countP_nil, decide_True, if_true]
  have h0 : s.entries.countP (fun e => decide (e.Email = email)) = 0 := by
    rw [List.countP_eq_zero]
    intro e he
    simpa using hfresh e he
  rw [h0]

/-- Witness of C5: a new email on the store loaded from a one-entry snapshot. -/
theorem C5_idempotent_rejection_witness :
    (storeNegativeID.Add "a@x.io" 1).accepted = true ∧
    ((storeNegativeID.Add "a@x.io" 1).store.Add "a@x.io" 2).accepted = false ∧
    ((storeNegativeID.Add "a@x.io" 1).store.Add "a@x.io" 2).store.entries.countP
      (fun e => e.Email = "a@x.io") = 1 :=
  C5_idempotent_rejection storeNegativeID "a@x.io" 1 2 (by decide)

/-- C6 (ordering). For every store state, `GetAll` returns the collection in
reverse append order: it has the same length, its element `i` is element
`len - 1 - i` of the collection, so it is the reversed collection; and after
adding A, B, C in that order to an empty store, `GetAll` is C, B, A. -/
theorem C6_GetAll_reverse_order (s : Store) (t1 t2 t3 : Time) :
    s.GetAll.length = s.entries.length ∧
    (∀ i : Nat, i < s.entries.length →
      s.GetAll[i]? = s.entries[s.entries.length - 1 - i]? ∧ (s.GetAll[i]?).isSome = true) ∧
    s.GetAll = s.entries.reverse ∧
    ((emptyStore s.file).addAll [("A", t1), ("B", t2), ("C", t3)]).GetAll =
      [⟨3, "C", t3⟩, ⟨2, "B", t2⟩, ⟨1, "A", t1⟩] := by
  refine ⟨?_, ?_, GetAll_eq_reverse s, ?_⟩
  · rw [GetAll_eq_reverse, List.length_reverse]
  · intro i hi
    rw [GetAll_eq_reverse]
    refine ⟨List.getElem?_reverse hi, ?_⟩
    rw [List.getElem?_reverse hi]
    have hlt : s.entries.length - 1 - i < s.entries.length := by omega
    simp [List.getElem?_eq_getElem hlt]
  · rw [GetAll_eq_reverse]
    simp [Store.addAll, Store.Add, emailExists, emptyStore, wrap64]

/-- Instance of C6 on a store of two entries. -/
theorem C6_GetAll_reverse_order_witness :
    (Store.mk [⟨1, "a@x.io", 10⟩, ⟨2, "b@x.io", 20⟩] "waitlist.json" 3).GetAll =
      [⟨2, "b@x.io", 20⟩, ⟨1, "a@x.io", 10⟩] :=
  (C6_GetAll_reverse_order (Store.mk [⟨1, "a@x.io", 10⟩, ⟨2, "b@x.io", 20⟩] "waitlist.json" 3)
    0 0 0).2.2.1

/-- C7 (rejected duplicate is atomic). For every store state and every email equal
to the email of some existing entry, `Add` returns no entry and `accepted = false`,
leaves the collection and the counter (the whole store) as they were, and requests
no persist. -/
theorem C7_rejected_duplicate_is_atomic (s : Store) (email : String) (now : Time)
    (hdup : ∃ e ∈ s.entries, e.Email = email) :
    (s.Add email now).entry = none ∧
    (s.Add email now).accepted = false ∧
    (s.Add email now).store.entries = s.entries ∧
    (s.Add email now).store.nextID = s.nextID ∧
    (s.Add email now).store = s ∧
    (s.Add email now).saveRequested = false := by
  rw [Add_of_exists now ((emailExists_eq_true_iff s.entries email).mpr hdup)]
  exact ⟨rfl, rfl, rfl, rfl, rfl, rfl⟩

/-- Witness of C7: the email of the loaded entry, added again. -/
theorem C7_rejected_duplicate_is_atomic_witness :
    (storeNegativeID.Add "x@x.io" 5).entry = none ∧
    (storeNegativeID.Add "x@x.io" 5).accepted = false ∧
    (storeNegativeID.Add "x@x.io" 5).store.entries = storeNegativeID.entries ∧
    (storeNegativeID.Add "x@x.io" 5).store.nextID = storeNegativeID.nextID ∧
    (storeNegativeID.Add "x@x.io" 5).store = storeNegativeID ∧
    (storeNegativeID.Add "x@x.io" 5).saveRequested = false :=
  C7_rejected_duplicate_is_atomic storeNegativeID "x@x.io" 5 (by decide)

/-- C8 (Add rejects iff duplicate). For every store state and every email, `Add`
returns `accepted = false` exactly when some existing entry has that very email,
and `accepted = true` in every other case; the comparison is exact, so
"A@x.io" and "a@x.io" are both accepted. -/
theorem C8_rejects_iff_duplicate (s : Store) (email : String) (now : Time) :
    ((s.Add email now).accepted = false ↔ ∃ e ∈ s.entries, e.Email = email) ∧
    ((s.Add email now).accepted = true ↔ ∀ e ∈ s.entries, e.Email ≠ email) ∧
    ((emptyStore s.file).Add "A@x.io" now).accepted = true ∧
    (((emptyStore s.file).Add "A@x.io" now).store.Add "a@x.io" now).accepted = true := by
  refine ⟨?_, ?_, by simp [Store.Add, emailExists, emptyStore],
    by simp [Store.Add, emailExists, emptyStore]⟩
  · rw [← emailExists_eq_true_iff]
    cases hex : emailExists s.entries email with
    | true => simp [Add_of_exists now hex]
    | false => simp [Add_of_not_exists now hex]
  · rw [← emailExists_eq_false_iff]
    cases hex : emailExists s.entries email with
    | true => simp [Add_of_exists now hex]
    | false => simp [Add_of_not_exists now hex]

/-- C9 (accepted Add postcondition), as the claim states it, fails on the counter:
on the store loaded from a snapshot whose largest id is `maxInt64 - 1` the counter
is `maxInt64`, and an accepted `Add` leaves it at `minInt64`, not at
`maxInt64 + 1`. -/
theorem C9_counterexample :
    NewStore unmarshalDocs (fun _ => Location.readable docNearMaxID) "waitlist.json" =
      .ok storeNearMaxID ∧
    (∀ e ∈ storeNearMaxID.entries, e.Email ≠ "a@x.io") ∧
    storeNearMaxID.nextID = 9223372036854775807 ∧
    (storeNearMaxID.Add "a@x.io" 1).store.nextID = -9223372036854775808 ∧
    (storeNearMaxID.Add "a@x.io" 1).store.nextID ≠ storeNearMaxID.nextID + 1 := by
  refine ⟨rfl, by decide, by decide, by decide, by decide⟩

/-- C9 (accepted Add postcondition, amended). For every store state with
collection `c` and counter `n` (an `int64`) and every email `e` not in `c`,
`Add(e)` is accepted and returns an entry with id `n`, email `e` and the current
instant; the new collection is `c` followed by that one entry; a persist is
requested; and the new counter is `n + 1` whenever `n` is below the largest
`int64`. -/
theorem C9_accepted_add_postcondition (s : Store) (email : String) (now : Time)
    (hint : isInt64 s.nextID) (hfresh : ∀ e ∈ s.entries, e.Email ≠ email) :
    (s.Add email now).accepted = true ∧
    (s.Add email now).entry = some ⟨s.nextID, email, now⟩ ∧
    (s.Add email now).store.entries = s.entries ++ [⟨s.nextID, email, now⟩] ∧
    (s.Add email now).store.file = s.file ∧
    (s.Add email now).saveRequested = true ∧
    (s.nextID < maxInt64 → (s.Add email now).store.nextID = s.nextID + 1) := by
  rw [Add_of_not_exists now ((emailExists_eq_false_iff s.entries email).mpr hfresh)]
  refine ⟨rfl, rfl, rfl, rfl, rfl, ?_⟩
  intro hlt
  apply wrap64_eq_self
  unfold isInt64 at hint ⊢
  unfold minInt64 maxInt64 at *
  omega

/-- Witness of C9: a new email on the store loaded from a one-entry snapshot, whose
counter `1` is below the largest `int64`. -/
theorem C9_accepted_add_postcondition_witness :
    (storeNegativeID.Add "a@x.io" 9).accepted = true ∧
    (storeNegativeID.Add "a@x.io" 9).entry = some ⟨1, "a@x.io", 9⟩ ∧
    (storeNegativeID.Add "a@x.io" 9).store.entries =
      storeNegativeID.entries ++ [⟨1, "a@x.io", 9⟩] ∧
    (storeNegativeID.Add "a@x.io" 9).store.nextID = 2 :=
  have h := C9_accepted_add_postcondition storeNegativeID "a@x.io" 9 (by decide) (by decide)
  ⟨h.1, h.2.1, h.2.2.1, h.2.2.2.2.2 (by decide)⟩

/-- C10 (initialize failure semantics), the code at the failing input: a snapshot
file exists, but a directory on its path may not be searched, so neither
`os.Stat` nor `os.ReadFile` can reach it; `NewStore` takes the failed `os.Stat`
for a missing file and returns, without an error, the empty store with counter 1. -/
theorem C10_unreachable_snapshot_starts_empty :
    (Location.unreachable docNearMaxID).fileExists = true ∧
    osStat (Location.unreachable docNearMaxID) = some Error.permission ∧
    osReadFile (Location.unreachable docNearMaxID) = .error Error.permission ∧
    NewStore unmarshalDocs (fun _ => Location.unreachable docNearMaxID) "./data/waitlist.json" =
      .ok { entries := [], file := "./data/waitlist.json", nextID := 1 } := by
  exact ⟨rfl, rfl, rfl, rfl⟩

/-- C11 (contiguous identifiers). For every N and every N pairwise distinct emails
added to an initially empty store, in whatever serial order the calls run (the
list `calls` is that order), every call returns `accepted = true`, the k-th call
to run returns the entry with id k, the final collection holds exactly these N
entries, and their ids are 1, 2, ..., N. N is the length of a Go slice, an `int`,
so at most `maxInt64`. -/
theorem C11_contiguous_ids (filename : String) (calls : List (String × Time))
    (hdistinct : (calls.map Prod.fst).Nodup) (hlen : (calls.length : Int) ≤ maxInt64) :
    (emptyStore filename).addResults calls =
      (numbered 1 calls).map (fun e => (some e, true)) ∧
    ((emptyStore filename).addAll calls).entries = numbered 1 calls ∧
    (numbered 1 calls).length = calls.length ∧
    (∀ (k : Nat) (email : String) (now : Time), calls[k]? = some (email, now) →
      (numbered 1 calls)[k]? = some ⟨(k : Int) + 1, email, now⟩) ∧
    (numbered 1 calls).map WaitlistEntry.ID =
      (List.range calls.length).map (fun k : Nat => (k : Int) + 1) := by
  have h := addResults_of_distinct calls (emptyStore filename)
    (by simp only [emptyStore]; decide)
    (by unfold maxInt64 at hlen; simp only [emptyStore]; omega) hdistinct
    (by intro c _ e he; simp [emptyStore] at he)
  simp only [emptyStore, List.nil_append] at h
  refine ⟨h.1, h.2, numbered_length calls 1, ?_, ?_⟩
  · intro k email now hk
    rw [numbered_getElem? calls 1 k email now hk, add_comm]
  · rw [numbered_ids]
    apply List.map_congr_left
    intro k _
    omega

/-- Witness of C11: three distinct emails. -/
theorem C11_contiguous_ids_witness :
    (emptyStore "waitlist.json").addResults [("c@x.io", 5), ("a@x.io", 6), ("b@x.io", 7)] =
      [(some ⟨1, "c@x.io", 5⟩, true), (some ⟨2, "a@x.io", 6⟩, true),
       (some ⟨3, "b@x.io", 7⟩, true)] ∧
    ((emptyStore "waitlist.json").addAll
        [("c@x.io", 5), ("a@x.io", 6), ("b@x.io", 7)]).entries =
      [⟨1, "c@x.io", 5⟩, ⟨2, "a@x.io", 6⟩, ⟨3, "b@x.io", 7⟩] :=
  have h := C11_contiguous_ids "waitlist.json" [("c@x.io", 5), ("a@x.io", 6), ("b@x.io", 7)]
    (by decide) (by decide)
  ⟨h.1, h.2.1⟩

/-- C12 (crash window). For every store state and every email not in the
collection, `Add` returns `accepted = true` with the new entry and requests a
persist; whatever the triggered `Save` does (encoding fails, the write fails at any
point, it succeeds, or it never runs), the store is the one `Add` left, and a
following `GetAll` returns the new entry first, exactly as when `Save` succeeds. -/
theorem C12_add_independent_of_save
    (marshal : List WaitlistEntry → Except Error String) (io : WriteOutcome)
    (s : Store) (fs : String → Location) (email : String) (now : Time)
    (hfresh : ∀ e ∈ s.entries, e.Email ≠ email) :
    (s.Add email now).accepted = true ∧
    (s.Add email now).entry = some ⟨s.nextID, email, now⟩ ∧
    (s.Add email now).saveRequested = true ∧
    ((s.Add email now).store.Save marshal io fs).store = (s.Add email now).store ∧
    ((s.Add email now).store.Save marshal io fs).store.GetAll =
      ⟨s.nextID, email, now⟩ :: s.GetAll ∧
    (s.Add email now).store.GetAll = ⟨s.nextID, email, now⟩ :: s.GetAll ∧
    ((s.Add email now).store.Save marshal io fs).store.GetAll =
      ((s.Add email now).store.Save marshal WriteOutcome.succeeds fs).store.GetAll := by
  have hget : (s.Add email now).store.GetAll = ⟨s.nextID, email, now⟩ :: s.GetAll := by
    rw [GetAll_eq_reverse, GetAll_eq_reverse,
      Add_of_not_exists now ((emailExists_eq_false_iff s.entries email).mpr hfresh)]
    simp
  refine ⟨?_, ?_, ?_, Save_store _ _ _ _, ?_, hget, ?_⟩
  · rw [Add_of_not_exists now ((emailExists_eq_false_iff s.entries email).mpr hfresh)]
  · rw [Add_of_not_exists now ((emailExists_eq_false_iff s.entries email).mpr hfresh)]
  · rw [Add_of_not_exists now ((emailExists_eq_false_iff s.entries email).mpr hfresh)]
  · rw [Save_store, hget]
  · rw [Save_store, Save_store]

/-- Witness of C12: a new email, and a `Save` whose write fails after 10 characters. -/
theorem C12_add_independent_of_save_witness :
    ((storeNegativeID.Add "a@x.io" 3).store.Save (marshalIndent formatTimeUTC)
        (WriteOutcome.writeFails 10 Error.io) (fun _ => Location.absent)).err =
      some Error.io ∧
    (storeNegativeID.Add "a@x.io" 3).accepted = true ∧
    ((storeNegativeID.Add "a@x.io" 3).store.Save (marshalIndent formatTimeUTC)
        (WriteOutcome.writeFails 10 Error.io) (fun _ => Location.absent)).store.GetAll =
      ⟨1, "a@x.io", 3⟩ :: storeNegativeID.GetAll :=
  have h := C12_add_independent_of_save (marshalIndent formatTimeUTC)
    (WriteOutcome.writeFails 10 Error.io) storeNegativeID (fun _ => Location.absent)
    "a@x.io" 3 (by decide)
  ⟨rfl, h.1, h.2.2.2.2.1⟩

/-- C13 (snapshot round trip), as the claim states it, fails: on a file the process
may write but not read (mode 0200) `Save` succeeds and leaves the complete new
document, which `json.Unmarshal` would decode to the saved entries, but `NewStore`
on the written file fails, at `os.ReadFile`. -/
theorem C13_counterexample :
    marshalIndent formatTimeUTC storeNearMaxID.entries = .ok docNearMaxIDSaved ∧
    writeOnlySave.err = none ∧
    writeOnlySave.fs "waitlist.json" = Location.unreadable docNearMaxIDSaved ∧
    unmarshalSavedDocs docNearMaxIDSaved = .ok storeNearMaxID.entries ∧
    NewStore unmarshalSavedDocs writeOnlySave.fs "waitlist.json" =
      .error Error.permission := by
  exact ⟨rfl, rfl, rfl, rfl, rfl⟩

/-- C13 (snapshot round trip, amended). For every collection held by a store, if
`Save` succeeds and the process can read back the file it wrote, then `NewStore`
on that file reads exactly the document `Save` wrote, the encoding of the whole
collection, and returns what `json.Unmarshal` makes of it: its error, or a store
with the decoded entries in the decoded order. So whenever `json.Unmarshal`
decodes that document back to the saved entries, `NewStore` succeeds and loads
the same entries in the same order (same id, same email, same instant), and every
entry accepted before the save is present after the reload. -/
theorem C13_reload_after_save
    (marshal : List WaitlistEntry → Except Error String)
    (unmarshal : String → Except Error (List WaitlistEntry))
    (io : WriteOutcome) (s : Store) (fs : String → Location)
    (hsave : (s.Save marshal io fs).err = none)
    (hread : ∃ d, osReadFile ((s.Save marshal io fs).fs s.file) = .ok d) :
    ∃ data : String, marshal s.entries = .ok data ∧
      osReadFile ((s.Save marshal io fs).fs s.file) = .ok data ∧
      NewStore unmarshal (s.Save marshal io fs).fs s.file =
        (match unmarshal data with
         | .ok es => .ok { entries := es, file := s.file, nextID := findMaxID es 1 }
         | .error err => .error err) ∧
      (unmarshal data = .ok s.entries →
        ∃ s' : Store, NewStore unmarshal (s.Save marshal io fs).fs s.file = .ok s' ∧
          s'.entries = s.entries ∧ s'.file = s.file ∧ ∀ e ∈ s.entries, e ∈ s'.entries) := by
  cases hm : marshal s.entries with
  | error err =>
    rw [Save_of_encode_error io fs hm] at hsave
    cases hsave
  | ok data =>
    rw [Save_of_encoded io fs hm] at hsave hread ⊢
    simp only [if_true] at hsave hread ⊢
    obtain ⟨d, hd⟩ := hread
    have hloc := readable_of_read_ok hd
    have hcontent := osWriteFile_of_no_error hsave
    rw [hloc] at hcontent
    simp only [Location.content, Option.some.injEq] at hcontent
    subst hcontent
    have hnew := NewStore_of_readable unmarshal
      (fun path => if path = s.file then (osWriteFile (fs s.file) d io).1 else fs path)
      s.file d (by simp only [if_true]; exact hloc)
    refine ⟨d, rfl, hd, hnew, ?_⟩
    intro hdec
    rw [hdec] at hnew
    exact ⟨_, hnew, rfl, rfl, fun e he => he⟩

/-- Witness of C13: the store with the id `maxInt64 - 1`, saved where no file was;
the reload returns the saved entries. -/
theorem C13_reload_after_save_witness :
    (storeNearMaxID.Save (marshalIndent formatTimeUTC) WriteOutcome.succeeds
      (fun _ => Location.absent)).err = none ∧
    osReadFile ((storeNearMaxID.Save (marshalIndent formatTimeUTC) WriteOutcome.succeeds
      (fun _ => Location.absent)).fs storeNearMaxID.file) = .ok docNearMaxIDSaved ∧
    NewStore unmarshalSavedDocs
      (storeNearMaxID.Save (marshalIndent formatTimeUTC) WriteOutcome.succeeds
        (fun _ => Location.absent)).fs storeNearMaxID.file = .ok storeNearMaxID := by
  obtain ⟨data, hm, hr, hn, _⟩ :=
    C13_reload_after_save (marshalIndent formatTimeUTC) unmarshalSavedDocs
      WriteOutcome.succeeds storeNearMaxID (fun _ => Location.absent) rfl
      ⟨docNearMaxIDSaved, rfl⟩
  have hdata : data = docNearMaxIDSaved := by
    have h0 : marshalIndent formatTimeUTC storeNearMaxID.entries = .ok docNearMaxIDSaved := rfl
    rw [h0] at hm
    exact (Except.ok.inj hm).symm
  subst hdata
  exact ⟨rfl, hr, hn⟩

/-- C14 (atomic snapshot write), as the claim states it, fails: a `Save` whose
write fails after 10 characters leaves at the location neither the prior document
nor the new one, but the first 10 characters of the new one, which a reader
cannot decode. -/
theorem C14_counterexample :
    marshalIndent formatTimeUTC storeNearMaxID.entries = .ok docNearMaxIDSaved ∧
    brokenSave.err = some Error.io ∧
    brokenSave.fs "waitlist.json" = Location.readable "[\n  \x7b\n    " ∧
    (brokenSave.fs "waitlist.json").content ≠ some docNegativeID ∧
    (brokenSave.fs "waitlist.json").content ≠ some docNearMaxIDSaved ∧
    NewStore unmarshalSavedDocs brokenSave.fs "waitlist.json" =
      .error Error.decodeFailed := by
  refine ⟨rfl, rfl, rfl, ?_, ?_, rfl⟩
  · have h : (brokenSave.fs "waitlist.json").content = some "[\n  \x7b\n    " := rfl
    rw [h]
    decide
  · have h : (brokenSave.fs "waitlist.json").content = some "[\n  \x7b\n    " := rfl
    rw [h]
    decide

/-- C14 (snapshot write, amended). For every `Save` call, the file at the location
afterwards is as it was before (so when encoding fails or the file cannot be
opened), or holds the complete new document (always so when `Save` returns no
error), or, when the write fails part-way, holds a truncation of the new
document. -/
theorem C14_save_file_states
    (marshal : List WaitlistEntry → Except Error String) (io : WriteOutcome)
    (s : Store) (fs : String → Location) :
    (∀ err, marshal s.entries = .error err → (s.Save marshal io fs).fs s.file = fs s.file) ∧
    (∀ err, (s.Save marshal (WriteOutcome.openFails err) fs).fs s.file = fs s.file) ∧
    (∀ data, marshal s.entries = .ok data →
      ((s.Save marshal io fs).err = none →
        ((s.Save marshal io fs).fs s.file).content = some data) ∧
      ((s.Save marshal io fs).fs s.file = fs s.file ∨
        ((s.Save marshal io fs).fs s.file).content = some data ∨
        ∃ n, ((s.Save marshal io fs).fs s.file).content = some (truncateData data n))) := by
  refine ⟨?_, ?_, ?_⟩
  · intro err hm
    rw [Save_of_encode_error io fs hm]
  · intro err
    unfold Store.Save
    split
    · rfl
    · simp only [if_true]
      cases fs s.file <;> rfl
  · intro data hm
    rw [Save_of_encoded io fs hm]
    simp only [if_true]
    exact ⟨osWriteFile_of_no_error, osWriteFile_cases _ _ _⟩

/-- Instance of C14: a `Save` that succeeds over an older snapshot leaves the
complete new document. -/
theorem C14_save_file_states_witness :
    ((storeNearMaxID.Save (marshalIndent formatTimeUTC) WriteOutcome.succeeds
      (fun _ => Location.readable docNegativeID)).fs "waitlist.json").content =
      some docNearMaxIDSaved :=
  ((C14_save_file_states (marshalIndent formatTimeUTC) WriteOutcome.succeeds storeNearMaxID
    (fun _ => Location.readable docNegativeID)).2.2 docNearMaxIDSaved rfl).1 rfl

/-- C16 (read-only operations). For every store state, `GetAll` and `Save`, however
the write goes, leave the collection and the counter (the whole store) unchanged,
so `GetAll` called twice with no `Add` in between, or with a `Save` in between,
returns equal sequences. -/
theorem C16_read_only_operations
    (marshal : List WaitlistEntry → Except Error String) (io : WriteOutcome)
    (s : Store) (fs : String → Location) :
    s.GetAllStep.2 = s ∧
    (s.Save marshal io fs).store = s ∧
    (s.Save marshal io fs).store.entries = s.entries ∧
    (s.Save marshal io fs).store.nextID = s.nextID ∧
    s.GetAllStep.2.GetAllStep.1 = s.GetAllStep.1 ∧
    (s.Save marshal io fs).store.GetAllStep.1 = s.GetAllStep.1 := by
  have h := Save_store marshal io s fs
  refine ⟨rfl, h, ?_, ?_, rfl, ?_⟩
  · rw [h]
  · rw [h]
  · rw [h]

/-- C17 (counter invariant). "The counter is at least 1 and every id of the
collection is below it" holds of the store `NewStore` returns from any snapshot
whose ids are all below `maxInt64`, and every `Add`, accepted or rejected,
preserves it as long as the counter is below `maxInt64`. -/
theorem C17_counter_invariant
    (unmarshal : String → Except Error (List WaitlistEntry)) (fs : String → Location)
    (filename : String) (s0 s : Store) (email : String) (now : Time) :
    (NewStore unmarshal fs filename = .ok s0 → (∀ e ∈ s0.entries, e.ID < maxInt64) →
      s0.counterInv) ∧
    (s.counterInv → s.nextID < maxInt64 → (s.Add email now).store.counterInv) := by
  refine ⟨?_, ?_⟩
  · intro hnew hids
    have hb := findMaxID_bounds s0.entries 1 (le_refl _) hids
    rw [← NewStore_nextID_eq hnew] at hb
    exact hb
  · intro hinv hlt
    obtain ⟨h1, h2⟩ := hinv
    cases hex : emailExists s.entries email with
    | true => rw [Add_of_exists now hex]; exact ⟨h1, h2⟩
    | false =>
      rw [Add_of_not_exists now hex]
      have hw : wrap64 (s.nextID + 1) = s.nextID + 1 := by
        apply wrap64_eq_self
        unfold isInt64 minInt64
        unfold maxInt64 at hlt ⊢
        omega
      unfold Store.counterInv
      simp only [hw]
      refine ⟨by omega, ?_⟩
      intro e he
      simp only [List.mem_append, List.mem_singleton] at he
      rcases he with he | rfl
      · have := h2 e he
        omega
      · simp only
        omega

/-- Instance of C17: the store loaded from the snapshot with the id `maxInt64 - 1`
satisfies the invariant, and one accepted `Add` on the store loaded from the
snapshot with the id `-5` keeps it. -/
theorem C17_counter_invariant_witness :
    storeNearMaxID.counterInv ∧ (storeNegativeID.Add "a@x.io" 4).store.counterInv :=
  have h := C17_counter_invariant unmarshalDocs (fun _ => Location.readable docNearMaxID)
    "waitlist.json" storeNearMaxID storeNegativeID "a@x.io" 4
  ⟨h.1 rfl (by decide), h.2 (by unfold Store.counterInv; decide) (by decide)⟩

/-- C15 (atomic check-and-append under concurrency). For every M ≥ 1, M goroutines
that call `Add` with one email not in the collection, interleaved step by step in
any order, end, once all have returned, with exactly one `accepted = true` and
M - 1 `accepted = false`: a goroutine runs the duplicate loop, the counter
increment and the `append` only while it holds the write lock, which `Lock()`
gives to one goroutine at a time. -/
theorem C15_one_accepted_among_concurrent (s : Store) (email : String) (times : List Time)
    (schedule : List Nat) (hfresh : ∀ e ∈ s.entries, e.Email ≠ email)
    (hM : 1 ≤ times.length)
    (hdone : ∀ c ∈ ((Shared.start s email times).run schedule).calls,
      c.phase.isReturned = true) :
    ((Shared.start s email times).run schedule).calls.length = times.length ∧
    ((Shared.start s email times).run schedule).calls.countP
      (fun c => c.phase.returnedWith true) = 1 ∧
    ((Shared.start s email times).run schedule).calls.countP
      (fun c => c.phase.returnedWith false) = times.length - 1 := by
  have hlen : ((Shared.start s email times).run schedule).calls.length = times.length := by
    rw [run_calls_length]
    simp [Shared.start]
  have hinv := Inv_run schedule _ (Inv_start s email times hfresh)
  have h := accepted_count_of_all_returned hinv (by omega) hdone
  rw [hlen] at h
  exact ⟨hlen, h.1, h.2⟩

/-- Witness of C15: three goroutines whose steps interleave; the first to get the
lock is accepted. -/
theorem C15_one_accepted_among_concurrent_witness :
    ((Shared.start storeNegativeID "a@x.io" [1, 2, 3]).run
        [1, 0, 1, 2, 1, 0, 1, 2, 1, 0, 0, 2, 0, 0, 2, 2, 2]).calls.map (fun c => c.phase) =
      [AddPhase.returned none false, AddPhase.returned (some ⟨1, "a@x.io", 2⟩) true,
       AddPhase.returned none false] ∧
    ((Shared.start storeNegativeID "a@x.io" [1, 2, 3]).run
        [1, 0, 1, 2, 1, 0, 1, 2, 1, 0, 0, 2, 0, 0, 2, 2, 2]).calls.countP
      (fun c => c.phase.returnedWith true) = 1 ∧
    ((Shared.start storeNegativeID "a@x.io" [1, 2, 3]).run
        [1, 0, 1, 2, 1, 0, 1, 2, 1, 0, 0, 2, 0, 0, 2, 2, 2]).calls.countP
      (fun c => c.phase.returnedWith false) = 2 :=
  have h := C15_one_accepted_among_concurrent storeNegativeID "a@x.io" [1, 2, 3]
    [1, 0, 1, 2, 1, 0, 1, 2, 1, 0, 0, 2, 0, 0, 2, 2, 2] (by decide) (by decide) (by decide)
  ⟨by decide, h.2.1, h.2.2⟩

/-- C18 (email validation gate). Every string `isValidEmail` accepts is a non-empty
local part of characters of `[a-zA-Z0-9._%+-]`, one '@', a non-empty part of
characters of `[a-zA-Z0-9.-]`, a '.', and at least two ASCII letters to the end
(and every such string is accepted); so all its characters are ASCII, from the
classes of the pattern or '@', it contains exactly one '@', it is not empty and
holds no newline, in particular none at its end; and `joinWaitlist` calls
`store.Add` only with strings `isValidEmail` accepts. -/
theorem C18_email_validation_gate (email : String) (decode : String → Except Error String)
    (s : Store) (method body : String) (now : Time) :
    (isValidEmail email = true ↔
      ∃ loc dom tld : List Char, email.data = loc ++ ['@'] ++ dom ++ ['.'] ++ tld ∧
        loc ≠ [] ∧ (∀ c ∈ loc, inClass localClass c = true) ∧
        dom ≠ [] ∧ (∀ c ∈ dom, inClass domainClass c = true) ∧
        2 ≤ tld.length ∧ (∀ c ∈ tld, inClass letterClass c = true)) ∧
    (isValidEmail email = true →
      (∀ c ∈ email.data, c.toNat < 128 ∧ (c = '@' ∨ inClass localClass c = true)) ∧
      email.data.count '@' = 1 ∧ email ≠ "" ∧ '\n' ∉ email.data ∧
      email.data.getLast? ≠ some '\n') ∧
    isValidEmail "" = false ∧ isValidEmail "a@x.io\n" = false ∧
    isValidEmail "a@x.io" = true ∧
    (∀ e, (joinWaitlist decode s method body now).addCalled = some e →
      isValidEmail e = true) := by
  refine ⟨isValidEmail_iff email, ?_, by decide, by decide, by decide,
    joinWaitlist_addCalled decode s method body now⟩
  intro hvalid
  obtain ⟨loc, dom, tld, hdata, hloc1, hloc2, hdom1, hdom2, htld1, htld2⟩ :=
    (isValidEmail_iff email).mp hvalid
  have hdom3 : ∀ c ∈ dom, inClass localClass c = true :=
    fun c hc => localClass_of_domainClass (hdom2 c hc)
  have htld3 : ∀ c ∈ tld, inClass localClass c = true :=
    fun c hc => localClass_of_domainClass (domainClass_of_letterClass (htld2 c hc))
  have hchars : ∀ c ∈ email.data, c = '@' ∨ inClass localClass c = true := by
    intro c hc
    rw [hdata] at hc
    simp only [List.mem_append, List.mem_singleton] at hc
    rcases hc with (((hc | hc) | hc) | hc) | hc
    · exact Or.inr (hloc2 c hc)
    · exact Or.inl hc
    · exact Or.inr (hdom3 c hc)
    · subst hc
      exact Or.inr (by decide)
    · exact Or.inr (htld3 c hc)
  have hnl : '\n' ∉ email.data := by
    intro hmem
    rcases hchars _ hmem with h | h
    · exact absurd h (by decide)
    · exact localClass_ne_newline h rfl
  refine ⟨?_, ?_, ?_, hnl, ?_⟩
  · intro c hc
    refine ⟨?_, hchars c hc⟩
    rcases hchars c hc with h | h
    · subst h
      decide
    · exact localClass_ascii h
  · rw [hdata]
    simp only [List.count_append, count_at_eq_zero hloc2, count_at_eq_zero hdom3,
      count_at_eq_zero htld3]
    decide
  · intro hempty
    subst hempty
    exact absurd hvalid (by decide)
  · intro hlast
    exact hnl (List.mem_of_getLast?_eq_some hlast)

/-- Instance of C18: a request with a valid email reaches `store.Add` with that
email, which `isValidEmail` accepts. -/
theorem C18_email_validation_gate_witness :
    (joinWaitlist decodeRequestDoc (emptyStore "waitlist.json") "POST" requestDoc 5).addCalled =
      some "a@x.io" ∧
    isValidEmail "a@x.io" = true :=
  ⟨by decide,
    (C18_email_validation_gate "a@x.io" decodeRequestDoc (emptyStore "waitlist.json")
      "POST" requestDoc 5).2.2.2.2.2 "a@x.io" (by decide)⟩

end SendRec
